import Mathlib

/-!
Verification of the document path-addressing and field-projection engine of
`mcp-smartroom-apm` (`src/data_processing.py`, `src/elasticsearch_client.py`).

The Python code works on JSON-like values (dicts, lists, strings, numbers,
booleans, `None`).  We embed those values as the mutual inductive `Json`
below (`JList` / `JDict` are the spines of lists and insertion-ordered
dicts, so that every recursion over a document is structural).  Python's
`None` is modelled by `Json.null`; since `get_nested_value` uses `None` both
for "absent" and for the JSON value `null`, `Json.null` plays the same
double role here, exactly as in the source.

Python exceptions (`TypeError`, `KeyError`, `IndexError`, ...) are modelled
by `Except Unit`: a function returns `Except.error ()` exactly at the inputs
where the Python code raises.

`_traverse_path` recurses on the remaining path (one level per path
segment), which is not structural in the document; it is therefore written
with an explicit fuel parameter, and the `get_nested_value` wrapper
instantiates the fuel with `path.length + 1`, a strict bound on the number
of segments, so the fuel never runs out on the wrapper.

Python dicts and lists are heap objects mutated through references.  The
value-level model above reproduces all return values and raise-points of the
code on inputs without interfering shared writes; the reference-level
behaviour (mutation of `source` through the verbatim-copied whitelist
entries) is captured separately by the small-step heap model in the second
half of the file, used for the frame/mutation claims.
-/

mutual
/-- JSON-like Python values: dicts, lists, strings, integers, booleans and
`None`. -/
inductive Json where
  | null : Json
  | bool : Bool → Json
  | num : Int → Json
  | str : String → Json
  | arr : JList → Json
  | obj : JDict → Json
/-- Spine of a Python list of JSON values. -/
inductive JList where
  | nil : JList
  | cons : Json → JList → JList
/-- Spine of a Python dict: insertion-ordered key/value pairs. -/
inductive JDict where
  | dnil : JDict
  | dcons : String → Json → JDict → JDict
end

namespace PyModel

/-- Build a `JList` from a Lean list (used for literals and for the lists
the code allocates). -/
def jlist : List Json → JList
  | [] => .nil
  | x :: xs => .cons x (jlist xs)

/-- Build a `JDict` from a Lean association list. -/
def jdict : List (String × Json) → JDict
  | [] => .dnil
  | (k, v) :: rest => .dcons k v (jdict rest)

/-- The elements of a `JList`, as a Lean list. -/
def elemsL : JList → List Json
  | .nil => []
  | .cons x tl => x :: elemsL tl

/-- The entries of a `JDict`, as a Lean association list. -/
def entriesD : JDict → List (String × Json)
  | .dnil => []
  | .dcons k v tl => (k, v) :: entriesD tl

/-- Python `d[k]` / `d.get(k)`: first matching key (dicts built by this code
never hold duplicate keys). -/
def lookupD : JDict → String → Option Json
  | .dnil, _ => none
  | .dcons k' v tl, k => if k' = k then some v else lookupD tl k

/-- Python dict assignment `d[k] = v`: update in place if the key exists
(keeping its position), otherwise append at the end. -/
def insertD : JDict → String → Json → JDict
  | .dnil, k, v => .dcons k v .dnil
  | .dcons k' v' tl, k, v =>
      if k' = k then .dcons k' v tl else .dcons k' v' (insertD tl k v)

/-- The keys of a dict, in order. -/
def keysD : JDict → List String
  | .dnil => []
  | .dcons k _ tl => k :: keysD tl

/-- Ordered association-list lookup (for the plain string-to-string and
config maps the code builds). -/
def lookupA {α : Type} : List (String × α) → String → Option α
  | [], _ => none
  | (k', v) :: rest, k => if k' = k then some v else lookupA rest k

/-- Python dict assignment on a plain association list. -/
def insertPy {α : Type} : List (String × α) → String → α → List (String × α)
  | [], k, v => [(k, v)]
  | (k', v') :: rest, k, v =>
      if k' = k then (k', v) :: rest else (k', v') :: insertPy rest k v

/-- Characters stripped by Python's `int()` and `str.strip()` (ASCII range;
exotic Unicode whitespace is not modelled). -/
def isPySpace (c : Char) : Bool :=
  c = ' ' || c = '\t' || c = '\n' || c = '\r' || c = '\x0b' || c = '\x0c'

/-- Strip leading and trailing whitespace (Python `str.strip()`). -/
def pyStrip (l : List Char) : List Char :=
  ((l.dropWhile isPySpace).reverse.dropWhile isPySpace).reverse

mutual
/-- Digit run with single interior underscores, as accepted by Python's
`int()` (e.g. `int("1_0") = 10`, while `"1__0"`, `"_1"`, `"1_"` fail). -/
def digCore : Nat → List Char → Option Nat
  | acc, [] => some acc
  | acc, c :: cs =>
      if c.isDigit then digCore (acc * 10 + (c.toNat - 48)) cs
      else if c = '_' then digUnder acc cs
      else none
/-- After an underscore a digit must follow. -/
def digUnder : Nat → List Char → Option Nat
  | _, [] => none
  | acc, d :: cs => if d.isDigit then digCore (acc * 10 + (d.toNat - 48)) cs else none
end

/-- Nonempty digit run (the body of Python's `int()` after the sign). -/
def pyDigits? : List Char → Option Nat
  | [] => none
  | c :: cs => if c.isDigit then digCore (c.toNat - 48) cs else none

/-- Python's `int(s)`: strip whitespace, optional sign, then a digit run;
`none` models the `ValueError`. -/
def pyIntCore : List Char → Option Int
  | [] => none
  | c :: r =>
      if c = '+' then (pyDigits? r).map Int.ofNat
      else if c = '-' then (pyDigits? r).map (fun n => -(Int.ofNat n))
      else (pyDigits? (c :: r)).map Int.ofNat

def pyInt? (l : List Char) : Option Int :=
  pyIntCore (pyStrip l)

/-- `path.split('.', 1)`: the part before the first `'.'`, and the rest
(`none` if there is no dot). -/
def splitFirstDot : List Char → List Char × Option (List Char)
  | [] => ([], none)
  | c :: cs =>
      if c = '.' then ([], some cs)
      else
        let p := splitFirstDot cs
        (c :: p.1, p.2)

/-- `first_part.split('[', 1)` (assuming `'['` occurs): the part before the
first `'['` and the part after it. -/
def splitFirstLBrack : List Char → List Char × List Char
  | [] => ([], [])
  | c :: cs =>
      if c = '[' then ([], cs)
      else
        let p := splitFirstLBrack cs
        (c :: p.1, p.2)

/-- `first_part.endswith('[]')`. -/
def endsBrackets (l : List Char) : Bool :=
  match l.reverse with
  | c1 :: c2 :: _ => c1 = ']' && c2 = '['
  | _ => false

/-- Substring test, Python `needle in haystack` for strings. -/
def isSubLC (needle : List Char) : List Char → Bool
  | [] => needle.isEmpty
  | c :: rest => needle.isPrefixOf (c :: rest) || isSubLC needle rest

/-- The `[]`-branch loop of `_traverse_path` (lines 44-57): for each element
evaluate the remaining path (or take the element itself if there is none);
drop `None` results, splice in list results, append the others.  `rec` is
the recursive call of `_traverse_path` at one less fuel. -/
def travFlatAux (rec : Json → List Char → Except Unit Json) (restPath : List Char) :
    List Json → Except Unit (List Json)
  | [] => .ok []
  | it :: its => do
      let v ← if restPath.isEmpty then .ok it else rec it restPath
      let tail ← travFlatAux rec restPath its
      match v with
      | .null => .ok tail
      | .arr xs => .ok (elemsL xs ++ tail)
      | v => .ok (v :: tail)

/-- One recursion level of `_traverse_path` (`data_processing.py` lines
21-85), with `rec` standing for the recursive call.  Faithful points:
  * the empty path returns the object itself (line 23);
  * `name[]` requires a dict with key `name` holding a list, else `None`;
    an empty collected result is returned as `None` (line 57);
  * `name[idx]`: `int(idx)` failure returns `None` *before* any dict check
    (lines 64-67); `index >= len` returns `None` (line 73); a negative
    index within `-len` uses Python negative indexing (`array_field[index]`,
    line 76); a negative index below `-len` raises `IndexError`
    (`Except.error`);
  * a plain field needs a dict containing the key, else `None`. -/
def travStep (rec : Json → List Char → Except Unit Json) (obj : Json)
    (path : List Char) : Except Unit Json :=
  if path.isEmpty then .ok obj else
  let sp := splitFirstDot path
  let firstPart := sp.1
  let restPath := (sp.2).getD []
  if endsBrackets firstPart then
    -- field_name = first_part[:-2]
    let fieldName := String.mk (firstPart.dropLast.dropLast)
    match obj with
    | .obj kvs =>
        match lookupD kvs fieldName with
        | some (.arr items) => do
            let results ← travFlatAux rec restPath (elemsL items)
            if results.isEmpty then .ok .null else .ok (.arr (jlist results))
        | some _ => .ok .null
        | none => .ok .null
    | _ => .ok .null
  else if firstPart.contains '[' && firstPart.getLast? = some ']' then
    let sb := splitFirstLBrack firstPart
    let fieldName := String.mk sb.1
    let indexStr := sb.2.dropLast
    match pyInt? indexStr with
    | none => .ok .null
    | some index =>
        match obj with
        | .obj kvs =>
            match lookupD kvs fieldName with
            | some (.arr items) =>
                let elems := elemsL items
                if (elems.length : Int) ≤ index then .ok .null
                else if 0 ≤ index then
                  let target := elems.getD index.toNat .null
                  if restPath.isEmpty then .ok target else rec target restPath
                else if 0 ≤ (elems.length : Int) + index then
                  let target := elems.getD ((elems.length : Int) + index).toNat .null
                  if restPath.isEmpty then .ok target else rec target restPath
                else .error ()
            | some _ => .ok .null
            | none => .ok .null
        | _ => .ok .null
  else
    match obj with
    | .obj kvs =>
        match lookupD kvs (String.mk firstPart) with
        | some v => if restPath.isEmpty then .ok v else rec v restPath
        | none => .ok .null
    | _ => .ok .null

/-- `_traverse_path`, fuelled: one fuel unit per path segment.  The fuel-0
case is unreachable from `get_nested_value`, whose fuel strictly dominates
the number of segments. -/
def trav : Nat → Json → List Char → Except Unit Json
  | 0, _, _ => .error ()
  | n + 1, obj, path => travStep (trav n) obj path

/-- `get_nested_value(obj, path)` (`data_processing.py` lines 11-19):
dotted-path lookup with array support.  `Except.error` marks the inputs
where the Python code raises. -/
def get_nested_value (obj : Json) (path : String) : Except Unit Json :=
  trav (path.toList.length + 1) obj path.toList

mutual
/-- Python's `repr` on JSON-like values (`str(x)` on a list or dict renders
elements with `repr`).  Quote-escaping inside strings is not modelled; no
claim inspects the rendering of nested containers. -/
def pyRepr : Json → String
  | .null => "None"
  | .bool b => if b then "True" else "False"
  | .num n => toString n
  | .str s => "'" ++ s ++ "'"
  | .arr xs => "[" ++ pyReprL xs ++ "]"
  | .obj kvs => "\x7b" ++ pyReprD kvs ++ "\x7d"
/-- `repr` of list elements, `", "`-separated. -/
def pyReprL : JList → String
  | .nil => ""
  | .cons x .nil => pyRepr x
  | .cons x (.cons y tl) => pyRepr x ++ ", " ++ pyReprL (.cons y tl)
/-- `repr` of dict entries, `", "`-separated. -/
def pyReprD : JDict → String
  | .dnil => ""
  | .dcons k v .dnil => "'" ++ k ++ "': " ++ pyRepr v
  | .dcons k v (.dcons k' v' tl) =>
      "'" ++ k ++ "': " ++ pyRepr v ++ ", " ++ pyReprD (.dcons k' v' tl)
end

/-- Python `str(v)`: identity on strings, `repr`-rendering otherwise. -/
def pyStr (v : Json) : String :=
  match v with
  | .str s => s
  | v => pyRepr v

/-- `dict.fromkeys`-style first-seen deduplication (order preserving), with
an accumulator of already-seen elements. -/
def dedupSeen {α : Type} [DecidableEq α] (seen : List α) : List α → List α
  | [] => []
  | x :: xs =>
      if x ∈ seen then dedupSeen seen xs
      else x :: dedupSeen (seen ++ [x]) xs

/-- `list(dict.fromkeys(l))`: keep the first occurrence of each element. -/
def dedupKeepFirst {α : Type} [DecidableEq α] (l : List α) : List α :=
  dedupSeen [] l

/-- `format_extracted_values(values)` (`data_processing.py` lines 87-98):
`None` passes through; a list is rendered as the `", "`-join of the
deduplicated string forms of its non-`None` elements (empty join → `None`);
any other value is stringified with `str`. -/
def format_extracted_values (values : Json) : Json :=
  match values with
  | .null => .null
  | .arr vs =>
      let strValues := (elemsL vs).filterMap fun v =>
        match v with
        | .null => none
        | v => some (pyStr v)
      let uniqueValues := dedupKeepFirst strValues
      if uniqueValues.isEmpty then .null else .str (String.intercalate ", " uniqueValues)
  | v => .str (pyStr v)

/-- Python `s.split(sep)` for a single-character separator, on character
lists (e.g. `"".split('.') = ['']`, `"a.".split('.') = ['a','']`). -/
def pySplitChar (sep : Char) : List Char → List (List Char)
  | [] => [[]]
  | c :: cs =>
      if c = sep then [] :: pySplitChar sep cs
      else
        match pySplitChar sep cs with
        | p :: ps => (c :: p) :: ps
        | [] => [[c]]

/-- `value.split(',')` on character lists. -/
def pySplitComma : List Char → List (List Char) :=
  pySplitChar ','

/-- `', '.join` on character lists. -/
def joinCS : List (List Char) → List Char
  | [] => []
  | [x] => x
  | x :: y :: xs => x ++ ',' :: ' ' :: joinCS (y :: xs)

/-- `deduplicate_field_values(value)` (`data_processing.py` lines 110-117):
empty (falsy) strings are returned unchanged; otherwise split on `','`,
strip each piece, deduplicate first-seen, rejoin with `", "`.  (The
`isinstance(value, str)` guard is subsumed by the `String` type.) -/
def deduplicate_field_values (value : String) : String :=
  if value.toList.isEmpty then value
  else
    let items := (pySplitComma value.toList).map pyStrip
    let uniqueItems := dedupKeepFirst items
    String.mk (joinCS uniqueItems)

/-- The loop of `set_nested_value` (`data_processing.py` lines 100-108) on
the already-split key list.  At every step where Python's `current` is not a
dict the code raises a `TypeError` (at the membership test, the subscript,
or the final assignment); those are the `.error` cases.  A missing
intermediate key creates a fresh `{}`. -/
def setNestedGo : Json → List String → Json → Except Unit Json
  | _, [], _ => .error ()
  | j, [k], v =>
      match j with
      | .obj kvs => .ok (.obj (insertD kvs k v))
      | _ => .error ()
  | j, k :: k' :: rest, v =>
      match j with
      | .obj kvs => do
          let child := (lookupD kvs k).getD (.obj .dnil)
          let c' ← setNestedGo child (k' :: rest) v
          .ok (.obj (insertD kvs k c'))
      | _ => .error ()

/-- `set_nested_value(obj, path, value)`: split the path on `'.'` and walk,
creating intermediate dicts.  Returns the updated document (the Python code
mutates `obj` in place; the reference-level effects are covered by the heap
model below). -/
def set_nested_value (obj : Json) (path : String) (value : Json) : Except Unit Json :=
  setNestedGo obj ((pySplitChar '.' path.toList).map String.mk) value

/-- Python `needle in container` for a string needle: key test on dicts,
element equality on lists (a non-string element never equals a string),
substring test on strings; `TypeError` on numbers, booleans and `None`. -/
def pyContainsStr (needle : String) : Json → Except Unit Bool
  | .obj kvs => .ok (lookupD kvs needle).isSome
  | .arr xs => .ok ((elemsL xs).any fun v => match v with | .str s => s = needle | _ => false)
  | .str s => .ok (isSubLC needle.toList s.toList)
  | _ => .error ()

/-- Python `container[key]` for a string key: dict lookup (`KeyError` when
missing); every non-dict raises `TypeError`. -/
def pySubscript : Json → String → Except Unit Json
  | .obj kvs, k =>
      match lookupD kvs k with
      | some v => .ok v
      | none => .error ()
  | _, _ => .error ()

/-- Python `for x in container`: list elements, dict keys, the characters of
a string; `TypeError` otherwise. -/
def pyIter : Json → Except Unit (List Json)
  | .arr xs => .ok (elemsL xs)
  | .obj kvs => .ok ((keysD kvs).map fun k => .str k)
  | .str s => .ok (s.toList.map fun c => .str (String.mk [c]))
  | _ => .error ()

/-- One entry of the per-index `fields` configuration: the values the code
reads from it (`field_config.get("alias")`, `field_config.get("need_dedupe")`).
The unused `description` is omitted. -/
structure FieldSpec where
  «alias» : Option String := none
  need_dedupe : Bool := false
deriving DecidableEq

/-- The five always-kept fields (`data_processing.py` line 124). -/
def importantFields : List String :=
  ["@timestamp", "userId", "userRole", "event", "appSessionId"]

/-- `new_source[k] = v` where `new_source` is the dict under construction
(always a dict; the catch-all branch is unreachable). -/
def insertPyJ (j : Json) (k : String) (v : Json) : Json :=
  match j with
  | .obj kvs => .obj (insertD kvs k v)
  | j => j

/-- The no-alias write of `apply_field_aliases` (lines 156-160): a dotted
field name goes through `set_nested_value`, otherwise a direct key write. -/
def writeNoAlias (ns : Json) (fieldName : String) (value : Json) : Except Unit Json :=
  if fieldName.toList.contains '.' then set_nested_value ns fieldName value
  else pure (insertPyJ ns fieldName value)

/-- The write phase of the field loop (lines 143-160): under a truthy
alias, optionally deduplicate string values, then write under the alias
(dotted aliases via `set_nested_value`); a missing or falsy (`""`) alias
writes under the field name. -/
def applyWriteValue (ns : Json) (fieldName : String) (fieldConfig : FieldSpec)
    (value : Json) : Except Unit Json :=
  match fieldConfig.«alias» with
  | some a =>
      if a.toList.isEmpty then writeNoAlias ns fieldName value
      else
        let value :=
          if fieldConfig.need_dedupe then
            match value with
            | .str s => Json.str (deduplicate_field_values s)
            | v => v
          else value
        if a.toList.contains '.' then set_nested_value ns a value
        else pure (insertPyJ ns a value)
  | none => writeNoAlias ns fieldName value

/-- The body of the `for field_name, field_config in fields_config.items()`
loop of `apply_field_aliases` (lines 132-160): extract, skip `None`, format
only lists, skip `None` formatter results, then write. -/
def applyOneField (source ns : Json) (fieldName : String) (fieldConfig : FieldSpec) :
    Except Unit Json := do
  let raw ← get_nested_value source fieldName
  match raw with
  | .null => pure ns
  | raw =>
    let value :=
      match raw with
      | .arr _ => format_extracted_values raw
      | v => v
    match value with
    | .null => pure ns
    | value => applyWriteValue ns fieldName fieldConfig value

/-- The `for field in important_fields` loop body of `apply_field_aliases`
(lines 127-129): `if field in source: new_source[field] = source[field]`. -/
def copyImportantField (source ns : Json) (field : String) : Except Unit Json := do
  let c ← pyContainsStr field source
  if c then do
    let v ← pySubscript source field
    pure (insertPyJ ns field v)
  else pure ns

/-- `apply_field_aliases(source, fields_config)` (`data_processing.py` lines
119-162): start from `{}`, copy the important fields that are present
(Python `field in source` / `source[field]`, which raises on non-iterable
sources), then process each configured field in order. -/
def apply_field_aliases (source : Json) (fieldsConfig : List (String × FieldSpec)) :
    Except Unit Json := do
  let ns ← importantFields.foldlM (copyImportantField source) (Json.obj .dnil)
  fieldsConfig.foldlM (fun ns p => applyOneField source ns p.1 p.2) ns

/-- One index entry of the catalog, keeping the part the code reads
(`config.get("fields", {})`); the `events` list is never consulted here. -/
structure IndexConfigEntry where
  fields : List (String × FieldSpec) := []

/-- `process_elasticsearch_data(result, index_name, index_config)`
(`data_processing.py` lines 164-182).  The guard only checks that `result`
is a dict with a `'hits'` key; afterwards `result['hits']['hits']` is
accessed unconditionally, so a malformed inner shape raises (`TypeError` on
a non-dict `result['hits']`, `KeyError` on a dict without an inner
`'hits'`, `TypeError` on a non-iterable hits value).  Each hit carrying
`'_source'` has it replaced by the projection; the Python in-place mutation
of `result` is reproduced by rebuilding the same dict shape. -/
def process_elasticsearch_data (result : Json) (indexName : String)
    (indexConfig : List (String × IndexConfigEntry)) : Except Unit Json :=
  match result with
  | .obj kvs =>
      match lookupD kvs "hits" with
      | none => .ok (.obj kvs)
      | some hitsOuter =>
          let fieldsConfig := ((lookupA indexConfig indexName).getD ⟨[]⟩).fields
          match hitsOuter with
          | .obj hkvs =>
              (match lookupD hkvs "hits" with
                | none => .error ()
                | some inner => do
                    let items ← pyIter inner
                    let newItems ← items.mapM fun hit => do
                      let b ← pyContainsStr "_source" hit
                      if b then do
                        let src ← pySubscript hit "_source"
                        let ns ← apply_field_aliases src fieldsConfig
                        pure (insertPyJ hit "_source" ns)
                      else pure hit
                    let newInner :=
                      match inner with
                      | .arr _ => Json.arr (jlist newItems)
                      | other => other
                    .ok (.obj (insertD kvs "hits" (.obj (insertD hkvs "hits" newInner)))))
          | _ => .error ()
  | r => .ok r

mutual
/-- `_replace_field_names_recursive(obj, alias_mapping)`
(`elasticsearch_client.py` lines 149-161): on a dict, rebuild it entry by
entry with each key sent through the alias mapping (`alias_mapping.get(key,
key)`) and each value rewritten recursively; on a list, rewrite every
element; anything else is returned unchanged. -/
def replace_field_names_recursive (aliasMapping : List (String × String)) : Json → Json
  | .obj kvs => .obj (replaceEntries aliasMapping .dnil kvs)
  | .arr xs => .arr (replaceElems aliasMapping xs)
  | v => v
/-- The list comprehension of the list branch. -/
def replaceElems (aliasMapping : List (String × String)) : JList → JList
  | .nil => .nil
  | .cons x tl => .cons (replace_field_names_recursive aliasMapping x) (replaceElems aliasMapping tl)
/-- The `for key, value in obj.items(): new_obj[new_key] = ...` loop, with
`acc` playing `new_obj`. -/
def replaceEntries (aliasMapping : List (String × String)) (acc : JDict) : JDict → JDict
  | .dnil => acc
  | .dcons k v tl =>
      replaceEntries aliasMapping
        (insertD acc ((lookupA aliasMapping k).getD k) (replace_field_names_recursive aliasMapping v)) tl
end

/-- The alias → original-name mapping built by `_resolve_aliases_in_filters`
(lines 122-128): one entry per configured field whose spec declares a truthy
alias, later duplicates overwriting. -/
def aliasToOriginal (fieldsConfig : List (String × FieldSpec)) : List (String × String) :=
  fieldsConfig.foldl
    (fun m p =>
      match p.2.«alias» with
      | some a => if a.toList.isEmpty then m else insertPy m a p.1
      | none => m)
    []

/-- `_resolve_aliases_in_filters(filters, index_config)` (lines 119-130). -/
def resolve_aliases_in_filters (filters : Json) (indexConfig : IndexConfigEntry) : Json :=
  replace_field_names_recursive (aliasToOriginal indexConfig.fields) filters

mutual
/-- Modelled from the spec (§4.5 AliasRewriter), for comparison with
`_replace_field_names_recursive`: "if `node` is an object, produce a new
object where every key is replaced by its canonical form if it matches an
alias in the map (non-matching keys pass through unchanged), and every
value is recursively rewritten; if `node` is an array, recursively rewrite
every element; otherwise return `node` unchanged."  Objects are dicts, so
the rebuilt object is populated by dict writes. -/
def rewriteKeysSpec (m : List (String × String)) : Json → Json
  | .obj kvs => .obj (rewriteKeysSpecD m .dnil kvs)
  | .arr xs => .arr (rewriteKeysSpecL m xs)
  | node => node
/-- Spec-side rewriting of every array element. -/
def rewriteKeysSpecL (m : List (String × String)) : JList → JList
  | .nil => .nil
  | .cons x tl => .cons (rewriteKeysSpec m x) (rewriteKeysSpecL m tl)
/-- Spec-side rebuilding of an object: each key replaced by its canonical
form if it matches an alias, each value recursively rewritten. -/
def rewriteKeysSpecD (m : List (String × String)) (acc : JDict) : JDict → JDict
  | .dnil => acc
  | .dcons k v tl =>
      rewriteKeysSpecD m
        (insertD acc
          (match lookupA m k with | some canon => canon | none => k)
          (rewriteKeysSpec m v)) tl
end

/-! ### Heap model

Python dicts and lists are mutable heap objects; `apply_field_aliases`
copies the whitelist fields *by reference* (`new_source[field] =
source[field]`, line 129) and `set_nested_value` then writes through
whatever object the destination path reaches — possibly an object shared
with `source`.  To settle the frame/mutation claims we re-run
`apply_field_aliases` over an explicit heap: addresses are `Nat`, cells are
dicts or lists of heap values, scalars are immutable primitives. -/

/-- Immutable Python scalars. -/
inductive Prim where
  | null : Prim
  | bool : Bool → Prim
  | num : Int → Prim
  | str : String → Prim
deriving DecidableEq

/-- A Python value: a scalar or a reference to a heap cell. -/
inductive HVal where
  | prim : Prim → HVal
  | ref : Nat → HVal
deriving DecidableEq

/-- A heap cell: a dict or a list. -/
inductive HObj where
  | dict : List (String × HVal) → HObj
  | list : List HVal → HObj
deriving DecidableEq

/-- Association-list lookup on `Nat` keys. -/
def lookupN {α : Type} : List (Nat × α) → Nat → Option α
  | [], _ => none
  | (k', v) :: rest, k => if k' = k then some v else lookupN rest k

/-- The heap: allocated cells and the next fresh address. -/
structure Heap where
  cells : List (Nat × HObj)
  next : Nat
deriving DecidableEq

/-- Dereference an address. -/
def lookupH (h : Heap) (a : Nat) : Option HObj :=
  lookupN h.cells a

/-- Overwrite the cell at an (allocated) address. -/
def updateH (h : Heap) (a : Nat) (o : HObj) : Heap :=
  ⟨h.cells.map fun p => if p.1 = a then (a, o) else p, h.next⟩

/-- Allocate a fresh cell. -/
def allocH (h : Heap) (o : HObj) : Nat × Heap :=
  (h.next, ⟨h.cells ++ [(h.next, o)], h.next + 1⟩)

/-- A value's references stay below `n`. -/
def valBelow (n : Nat) : HVal → Bool
  | .ref a => a < n
  | _ => true

/-- A cell's references stay below `n`. -/
def objBelow (n : Nat) : HObj → Bool
  | .dict kvs => kvs.all fun p => valBelow n p.2
  | .list vs => vs.all (valBelow n)

/-- Well-formed heap: every allocated address and every reference stored in
a cell is below `next`, and every address below `next` is allocated (heaps
built by loading a document and running the code have this shape). -/
def wfHeapB (h : Heap) : Bool :=
  (h.cells.all fun p => decide (p.1 < h.next) && objBelow h.next p.2) &&
  (List.range h.next).all fun a => (lookupH h a).isSome

/-- One level of reading a value back into a `Json` tree (`none` when the
fuel runs out or a reference dangles). -/
def readStep (rec : HVal → Option Json) (h : Heap) : HVal → Option Json
  | .prim .null => some .null
  | .prim (.bool b) => some (.bool b)
  | .prim (.num n) => some (.num n)
  | .prim (.str s) => some (.str s)
  | .ref a =>
      match lookupH h a with
      | some (.list vs) => (vs.mapM rec).map fun l => Json.arr (jlist l)
      | some (.dict kvs) =>
          (kvs.mapM fun p => (rec p.2).map fun j => (p.1, j)).map fun l => Json.obj (jdict l)
      | none => none

/-- Fuelled read-back of a heap value as a document. -/
def readJsonH : Nat → Heap → HVal → Option Json
  | 0, _, _ => none
  | f + 1, h, v => readStep (readJsonH f h) h v

/-- One level of `repr` over the heap. -/
def pyReprHStep (rec : HVal → String) (h : Heap) : HVal → String
  | .prim .null => "None"
  | .prim (.bool b) => if b then "True" else "False"
  | .prim (.num n) => toString n
  | .prim (.str s) => "'" ++ s ++ "'"
  | .ref a =>
      match lookupH h a with
      | some (.list vs) => "[" ++ String.intercalate ", " (vs.map rec) ++ "]"
      | some (.dict kvs) =>
          "\x7b" ++ String.intercalate ", " (kvs.map fun p => "'" ++ p.1 ++ "': " ++ rec p.2) ++ "\x7d"
      | none => ""

/-- Fuelled `repr` over the heap (the cell count bounds the depth of any
acyclic value, and no claim inspects the rendering of cyclic ones). -/
def pyReprHF : Nat → Heap → HVal → String
  | 0, _, _ => ""
  | f + 1, h, v => pyReprHStep (pyReprHF f h) h v

/-- Python `str` over the heap. -/
def pyStrH (h : Heap) (v : HVal) : String :=
  match v with
  | .prim (.str s) => s
  | v => pyReprHF (h.cells.length + 1) h v

/-- `format_extracted_values` over the heap (reads only, allocates
nothing observable: its result is a scalar or `None`). -/
def formatH (h : Heap) (values : HVal) : HVal :=
  match values with
  | .prim .null => .prim .null
  | .ref a =>
      match lookupH h a with
      | some (.list vs) =>
          let strValues := vs.filterMap fun v =>
            match v with
            | .prim .null => none
            | v => some (pyStrH h v)
          let uniqueValues := dedupKeepFirst strValues
          if uniqueValues.isEmpty then .prim .null
          else .prim (.str (String.intercalate ", " uniqueValues))
      | _ => .prim (.str (pyStrH h values))
  | v => .prim (.str (pyStrH h v))

/-- The flatten loop of `_traverse_path` over the heap, accumulating
`results` and threading allocations left to right. -/
def travHFlatAux (rec : Heap → HVal → List Char → Except Unit (HVal × Heap))
    (restPath : List Char) (acc : List HVal) :
    List HVal → Heap → Except Unit (List HVal × Heap)
  | [], h => .ok (acc, h)
  | it :: its, h => do
      let (value, h') ← if restPath.isEmpty then .ok (it, h) else rec h it restPath
      let acc' :=
        match value with
        | .prim .null => acc
        | .ref a =>
            match lookupH h' a with
            | some (.list xs) => acc ++ xs
            | _ => acc ++ [value]
        | v => acc ++ [v]
      travHFlatAux rec restPath acc' its h'

/-- One recursion level of `_traverse_path` over the heap; mirrors
`travStep` with dicts and lists dereferenced through the heap, and the
collected flatten results allocated as a fresh list cell (Python's
`results = []`). -/
def travHStep (rec : Heap → HVal → List Char → Except Unit (HVal × Heap))
    (h : Heap) (obj : HVal) (path : List Char) : Except Unit (HVal × Heap) :=
  if path.isEmpty then .ok (obj, h) else
  let sp := splitFirstDot path
  let firstPart := sp.1
  let restPath := (sp.2).getD []
  if endsBrackets firstPart then
    let fieldName := String.mk (firstPart.dropLast.dropLast)
    match obj with
    | .ref a =>
        match lookupH h a with
        | some (.dict kvs) =>
            match lookupA kvs fieldName with
            | some (.ref a') =>
                (match lookupH h a' with
                  | some (.list items) => do
                      let (results, h') ← travHFlatAux rec restPath [] items h
                      if results.isEmpty then .ok (.prim .null, h')
                      else
                        let (aNew, h'') := allocH h' (.list results)
                        .ok (.ref aNew, h'')
                  | _ => .ok (.prim .null, h))
            | some _ => .ok (.prim .null, h)
            | none => .ok (.prim .null, h)
        | _ => .ok (.prim .null, h)
    | _ => .ok (.prim .null, h)
  else if firstPart.contains '[' && firstPart.getLast? = some ']' then
    let sb := splitFirstLBrack firstPart
    let fieldName := String.mk sb.1
    let indexStr := sb.2.dropLast
    match pyInt? indexStr with
    | none => .ok (.prim .null, h)
    | some index =>
        match obj with
        | .ref a =>
            match lookupH h a with
            | some (.dict kvs) =>
                match lookupA kvs fieldName with
                | some (.ref a') =>
                    (match lookupH h a' with
                      | some (.list items) =>
                          if (items.length : Int) ≤ index then .ok (.prim .null, h)
                          else if 0 ≤ index then
                            let target := items.getD index.toNat (.prim .null)
                            if restPath.isEmpty then .ok (target, h) else rec h target restPath
                          else if 0 ≤ (items.length : Int) + index then
                            let target := items.getD ((items.length : Int) + index).toNat (.prim .null)
                            if restPath.isEmpty then .ok (target, h) else rec h target restPath
                          else .error ()
                      | _ => .ok (.prim .null, h))
                | some _ => .ok (.prim .null, h)
                | none => .ok (.prim .null, h)
            | _ => .ok (.prim .null, h)
        | _ => .ok (.prim .null, h)
  else
    match obj with
    | .ref a =>
        match lookupH h a with
        | some (.dict kvs) =>
            match lookupA kvs (String.mk firstPart) with
            | some v => if restPath.isEmpty then .ok (v, h) else rec h v restPath
            | none => .ok (.prim .null, h)
        | _ => .ok (.prim .null, h)
    | _ => .ok (.prim .null, h)

/-- Fuelled `_traverse_path` over the heap. -/
def travH : Nat → Heap → HVal → List Char → Except Unit (HVal × Heap)
  | 0, _, _, _ => .error ()
  | n + 1, h, obj, path => travHStep (travH n) h obj path

/-- `get_nested_value` over the heap. -/
def get_nested_valueH (h : Heap) (obj : HVal) (path : String) : Except Unit (HVal × Heap) :=
  travH (path.toList.length + 1) h obj path.toList

/-- `set_nested_value`'s loop over the heap: walk from the cell at `a`,
following (or creating) intermediate dicts, and write the final key in
place.  Every point where Python's `current` is a non-dict raises. -/
def setNestedGoH : Heap → Nat → List String → HVal → Except Unit Heap
  | _, _, [], _ => .error ()
  | h, a, [k], v =>
      match lookupH h a with
      | some (.dict kvs) => .ok (updateH h a (.dict (insertPy kvs k v)))
      | _ => .error ()
  | h, a, k :: k' :: rest, v =>
      match lookupH h a with
      | some (.dict kvs) =>
          match lookupA kvs k with
          | some (.ref a') => setNestedGoH h a' (k' :: rest) v
          | some (.prim _) => .error ()
          | none =>
              let (a'', h') := allocH h (.dict [])
              let h'' := updateH h' a (.dict (insertPy kvs k (.ref a'')))
              setNestedGoH h'' a'' (k' :: rest) v
      | _ => .error ()

/-- `set_nested_value(obj_at_a, path, value)` over the heap. -/
def set_nested_valueH (h : Heap) (a : Nat) (path : String) (value : HVal) : Except Unit Heap :=
  setNestedGoH h a ((pySplitChar '.' path.toList).map String.mk) value

/-- Python `needle in container` over the heap. -/
def pyContainsStrH (h : Heap) (needle : String) : HVal → Except Unit Bool
  | .ref a =>
      match lookupH h a with
      | some (.dict kvs) => .ok (lookupA kvs needle).isSome
      | some (.list vs) =>
          .ok (vs.any fun v => match v with | .prim (.str s) => s = needle | _ => false)
      | none => .error ()
  | .prim (.str s) => .ok (isSubLC needle.toList s.toList)
  | _ => .error ()

/-- Python `container[key]` over the heap. -/
def pySubscriptH (h : Heap) (v : HVal) (k : String) : Except Unit HVal :=
  match v with
  | .ref a =>
      match lookupH h a with
      | some (.dict kvs) =>
          match lookupA kvs k with
          | some w => .ok w
          | none => .error ()
      | _ => .error ()
  | _ => .error ()

/-- `new_source[k] = v` over the heap: `a` is the address of the
`new_source` dict (always a dict cell; the fallback is unreachable). -/
def dictWriteH (h : Heap) (a : Nat) (k : String) (v : HVal) : Heap :=
  match lookupH h a with
  | some (.dict kvs) => updateH h a (.dict (insertPy kvs k v))
  | _ => h

/-- The no-alias write of `apply_field_aliases` over the heap. -/
def writeNoAliasH (h : Heap) (a0 : Nat) (fieldName : String) (value : HVal) :
    Except Unit Heap :=
  if fieldName.toList.contains '.' then set_nested_valueH h a0 fieldName value
  else pure (dictWriteH h a0 fieldName value)

/-- The write phase of the field loop over the heap. -/
def applyWriteValueH (h : Heap) (a0 : Nat) (fieldName : String)
    (fieldConfig : FieldSpec) (value : HVal) : Except Unit Heap :=
  match fieldConfig.«alias» with
  | some a =>
      if a.toList.isEmpty then writeNoAliasH h a0 fieldName value
      else
        let value :=
          if fieldConfig.need_dedupe then
            match value with
            | .prim (.str s) => HVal.prim (.str (deduplicate_field_values s))
            | v => v
          else value
        if a.toList.contains '.' then set_nested_valueH h a0 a value
        else pure (dictWriteH h a0 a value)
  | none => writeNoAliasH h a0 fieldName value

/-- The per-field loop body of `apply_field_aliases` over the heap:
`a0` is the address of `new_source`. -/
def applyOneFieldH (h : Heap) (source : HVal) (a0 : Nat) (fieldName : String)
    (fieldConfig : FieldSpec) : Except Unit Heap := do
  let (raw, h) ← travH (fieldName.toList.length + 1) h source fieldName.toList
  match raw with
  | .prim .null => pure h
  | raw =>
      let isLst :=
        match raw with
        | .ref a => match lookupH h a with | some (.list _) => true | _ => false
        | _ => false
      let value := if isLst then formatH h raw else raw
      match value with
      | .prim .null => pure h
      | value => applyWriteValueH h a0 fieldName fieldConfig value

/-- The whitelist-copy loop body over the heap: `new_source[field] =
source[field]` copies the *reference*, so `new_source` and `source` share
the field's object afterwards. -/
def copyImportantFieldH (source : HVal) (a0 : Nat) (h : Heap) (field : String) :
    Except Unit Heap := do
  let c ← pyContainsStrH h field source
  if c then do
    let v ← pySubscriptH h source field
    pure (dictWriteH h a0 field v)
  else pure h

/-- `apply_field_aliases` over the heap: allocate the fresh `new_source`
dict, copy present whitelist fields *by reference*, then process the
configured fields; returns a reference to `new_source` and the final
heap. -/
def apply_field_aliasesH (h0 : Heap) (source : HVal) (cfg : List (String × FieldSpec)) :
    Except Unit (HVal × Heap) := do
  let al := allocH h0 (.dict [])
  let a0 := al.1
  let h ← importantFields.foldlM (copyImportantFieldH source a0) al.2
  let h ← cfg.foldlM (fun h p => applyOneFieldH h source a0 p.1 p.2) h
  pure (.ref a0, h)

/-! ### Statement helpers -/

/-- The destination key a configured field is written under: the alias when
it is truthy, the field name otherwise (lines 144, 151-160). -/
def destinationName (fieldName : String) (fc : FieldSpec) : String :=
  match fc.«alias» with
  | some a => if a.toList.isEmpty then fieldName else a
  | none => fieldName

/-- Pure description of the whitelist-copy fold when the source is the dict
`kvs`: each present field is written into `ns` in order. -/
def copyWhitelist (kvs : JDict) (fields : List String) (ns : JDict) : JDict :=
  match fields with
  | [] => ns
  | f :: fs =>
      copyWhitelist kvs fs
        (match lookupD kvs f with
          | some v => insertD ns f v
          | none => ns)

/-- The comma-separated items of a string after stripping, the view under
which `deduplicate_field_values` deduplicates. -/
def itemsOf (s : String) : List (List Char) :=
  (pySplitComma s.toList).map pyStrip

end PyModel

/-! ## Lemmas and theorems -/

namespace PyModel

theorem lookupD_insertD_self : ∀ (d : JDict) (k : String) (v : Json),
    lookupD (insertD d k v) k = some v
  | .dnil, k, v => by simp [insertD, lookupD]
  | .dcons k' v' tl, k, v => by
      by_cases h : k' = k
      · subst h; simp [insertD, lookupD]
      · simp [insertD, lookupD, h, lookupD_insertD_self tl k v]

theorem lookupD_insertD_ne : ∀ (d : JDict) (k : String) (v : Json) (k' : String),
    k' ≠ k → lookupD (insertD d k v) k' = lookupD d k'
  | .dnil, k, v, k', h => by
      have h' : ¬k = k' := fun hh => h hh.symm
      simp [insertD, lookupD, h']
  | .dcons k'' v'' tl, k, v, k', h => by
      by_cases h2 : k'' = k
      · subst h2
        have h' : ¬k'' = k' := fun hh => h hh.symm
        simp [insertD, lookupD, h']
      · by_cases h3 : k'' = k'
        · subst h3; simp [insertD, lookupD, h2]
        · simp [insertD, lookupD, h2, h3, lookupD_insertD_ne tl k v k' h]

theorem mem_keysD_insertD : ∀ (d : JDict) (k : String) (v : Json) (k' : String),
    k' ∈ keysD (insertD d k v) → k' = k ∨ k' ∈ keysD d
  | .dnil, k, v, k', h => by simpa [insertD, keysD] using h
  | .dcons k'' v'' tl, k, v, k', h => by
      by_cases h2 : k'' = k
      · subst h2
        simpa [insertD, keysD] using h
      · simp only [insertD, keysD, h2, if_neg] at h
        rcases List.mem_cons.mp h with h3 | h3
        · exact Or.inr (by simp [keysD, h3])
        · rcases mem_keysD_insertD tl k v k' h3 with h4 | h4
          · exact Or.inl h4
          · exact Or.inr (by simp [keysD, h4])

theorem mk_toList (s : String) : String.mk s.toList = s := rfl

/-! ### C10 -/

/-- C10: evaluating the empty path string `""` against any document `d`
(of any type, including non-objects) returns `d` itself rather than Absent:
`get_nested_value(d, "") = d`. -/
theorem c10_empty_path_returns_document (d : Json) : get_nested_value d "" = .ok d := rfl

/-! ### C2 -/

/-- C2 counterexample: `process_elasticsearch_data({"hits": 5}, ...)` does
not have the `{hits: {hits: [...]}}` shape, yet the code raises a
`TypeError` at `result['hits']['hits']` instead of returning the input
unchanged — refuting "returns the input unchanged and never throws". -/
theorem c2_counterexample :
    process_elasticsearch_data (.obj (jdict [("hits", .num 5)])) "idx" [] = .error () := rfl

/-- C2 (amended): the pass-through guard of `process_elasticsearch_data`
only covers a non-dict input or a dict without a `'hits'` key; in those two
cases the input is returned unchanged and nothing is raised.  (When `'hits'`
is present but the inner shape is malformed the function can raise, see the
counterexample.) -/
theorem c2_amended_pass_through_guard :
    (∀ (r : Json) (n : String) (c : List (String × IndexConfigEntry)),
        (∀ kvs, r ≠ .obj kvs) → process_elasticsearch_data r n c = .ok r)
    ∧ (∀ (kvs : JDict) (n : String) (c : List (String × IndexConfigEntry)),
        lookupD kvs "hits" = none →
        process_elasticsearch_data (.obj kvs) n c = .ok (.obj kvs)) := by
  constructor
  · intro r n c h
    cases r with
    | obj kvs => exact absurd rfl (h kvs)
    | null => rfl
    | bool b => rfl
    | num m => rfl
    | str s => rfl
    | arr xs => rfl
  · intro kvs n c h
    simp [process_elasticsearch_data, h]

/-- C2 witness: the amended theorem applied to the non-dict input `3` and to
the dict `{"a": 1}` without a `'hits'` key. -/
theorem c2_amended_pass_through_guard_witness :
    process_elasticsearch_data (.num 3) "idx" [] = .ok (.num 3)
    ∧ process_elasticsearch_data (.obj (jdict [("a", .num 1)])) "idx" []
        = .ok (.obj (jdict [("a", .num 1)])) :=
  ⟨c2_amended_pass_through_guard.1 (.num 3) "idx" [] (fun _ h => nomatch h),
   c2_amended_pass_through_guard.2 (jdict [("a", .num 1)]) "idx" [] rfl⟩

/-- The whitelist-copy fold on a dict source never raises and acts as
`copyWhitelist`. -/
theorem foldlM_copyImportantField (kvs : JDict) :
    ∀ (fields : List String) (ns : JDict),
      fields.foldlM (copyImportantField (.obj kvs)) (.obj ns)
        = .ok (.obj (copyWhitelist kvs fields ns))
  | [], ns => rfl
  | f :: fs, ns => by
      cases h : lookupD kvs f with
      | none =>
          simp [copyImportantField, pyContainsStr, h, copyWhitelist, bind, Except.bind,
            pure, Except.pure, foldlM_copyImportantField kvs fs ns]
      | some v =>
          simp [copyImportantField, pyContainsStr, pySubscript, h, insertPyJ, bind,
            Except.bind, pure, Except.pure, copyWhitelist,
            foldlM_copyImportantField kvs fs (insertD ns f v)]

/-! ### C7 -/

/-- C7 counterexample: `format_extracted_values(5)` returns the string
`"5"`, not `5` — the formatter does stringify non-list scalars, refuting
"format(v) returns v unchanged". -/
theorem c7_counterexample :
    format_extracted_values (.num 5) = .str "5" ∧ Json.str "5" ≠ Json.num 5 :=
  ⟨rfl, fun h => nomatch h⟩

/-- C7 (amended): `format_extracted_values` applied to a non-`None`,
non-list value returns its Python string form `str(v)` (so numbers *are*
stringified by the formatter itself); however `apply_field_aliases` only
invokes the formatter on list values, so a non-list extracted value is
written into the projection unchanged: projecting a single field whose
path evaluates to a non-list, non-`None` value `v` under a plain (dot-free,
truthy) alias stores exactly `v`. -/
theorem c7_amended_scalars_bypass_formatter :
    (∀ v : Json, v ≠ .null → (∀ xs, v ≠ .arr xs) →
        format_extracted_values v = .str (pyStr v))
    ∧ (∀ (kvs : JDict) (p a : String) (v : Json),
        get_nested_value (.obj kvs) p = .ok v →
        v ≠ .null → (∀ xs, v ≠ .arr xs) →
        a.toList ≠ [] → '.' ∉ a.toList →
        ∃ okvs, apply_field_aliases (.obj kvs) [(p, ⟨some a, false⟩)] = .ok (.obj okvs)
          ∧ lookupD okvs a = some v) := by
  constructor
  · intro v hnull harr
    cases v with
    | null => exact absurd rfl hnull
    | arr xs => exact absurd rfl (harr xs)
    | bool b => rfl
    | num n => rfl
    | str s => rfl
    | obj kvs => rfl
  · intro kvs p a v hget hnull harr hne hdot
    refine ⟨insertD (copyWhitelist kvs importantFields .dnil) a v, ?_, lookupD_insertD_self _ _ _⟩
    have hfold := foldlM_copyImportantField kvs importantFields .dnil
    have hae : a.toList.isEmpty = false := by
      cases hl : a.toList with
      | nil => exact absurd hl hne
      | cons c cs => rfl
    have hne' : ¬(a.data = []) := hne
    have hnm : ¬('.' ∈ a.data) := hdot
    cases v with
    | null => exact absurd rfl hnull
    | arr xs => exact absurd rfl (harr xs)
    | bool b =>
        simp [apply_field_aliases, hfold, applyOneField, applyWriteValue, hget, hne', hnm,
          bind, Except.bind, pure, Except.pure, insertPyJ]
    | num n =>
        simp [apply_field_aliases, hfold, applyOneField, applyWriteValue, hget, hne', hnm,
          bind, Except.bind, pure, Except.pure, insertPyJ]
    | str s =>
        simp [apply_field_aliases, hfold, applyOneField, applyWriteValue, hget, hne', hnm,
          bind, Except.bind, pure, Except.pure, insertPyJ]
    | obj kvs' =>
        simp [apply_field_aliases, hfold, applyOneField, applyWriteValue, hget, hne', hnm,
          bind, Except.bind, pure, Except.pure, insertPyJ]

/-- C7 witness: the amended theorem at `v = 6` (formatter output `"6"`) and
at the single-field projection of `{"x": 7}` under alias `y`. -/
theorem c7_amended_scalars_bypass_formatter_witness :
    format_extracted_values (.num 6) = .str (pyStr (.num 6))
    ∧ ∃ okvs, apply_field_aliases (.obj (jdict [("x", .num 7)])) [("x", ⟨some "y", false⟩)]
        = .ok (.obj okvs) ∧ lookupD okvs "y" = some (.num 7) :=
  ⟨c7_amended_scalars_bypass_formatter.1 (.num 6) (fun h => nomatch h) (fun _ h => nomatch h),
   c7_amended_scalars_bypass_formatter.2 (jdict [("x", .num 7)]) "x" "y" (.num 7) rfl
     (fun h => nomatch h) (fun _ h => nomatch h) (by decide) (by decide)⟩

/-! ### C5 -/

mutual
/-- `_replace_field_names_recursive` agrees with the spec-side
`rewriteKeys` on every node. -/
def replaceEqSpecJ (m : List (String × String)) :
    (j : Json) → replace_field_names_recursive m j = rewriteKeysSpec m j
  | .null => rfl
  | .bool _ => rfl
  | .num _ => rfl
  | .str _ => rfl
  | .arr xs => congrArg Json.arr (replaceEqSpecL m xs)
  | .obj kvs => congrArg Json.obj (replaceEqSpecD m .dnil kvs)
/-- List case of `replaceEqSpecJ`. -/
def replaceEqSpecL (m : List (String × String)) :
    (l : JList) → replaceElems m l = rewriteKeysSpecL m l
  | .nil => rfl
  | .cons x tl => by
      rw [replaceElems, rewriteKeysSpecL, replaceEqSpecJ m x, replaceEqSpecL m tl]
/-- Dict case of `replaceEqSpecJ` (any accumulator). -/
def replaceEqSpecD (m : List (String × String)) :
    (acc : JDict) → (d : JDict) → replaceEntries m acc d = rewriteKeysSpecD m acc d
  | _, .dnil => rfl
  | acc, .dcons k v tl => by
      rw [replaceEntries, rewriteKeysSpecD, replaceEqSpecJ m v]
      cases lookupA m k with
      | some c => exact replaceEqSpecD m _ tl
      | none => exact replaceEqSpecD m _ tl
end

/-- C5: `_replace_field_names_recursive` implements the spec's
`rewriteKeys`: at every nesting depth each object key matching a configured
alias is replaced by its canonical path (non-matching keys pass through),
object values and array elements are rewritten recursively, and non-object
non-array nodes are returned unchanged.  Concretely, with the alias
`issueReason` for `details.issues[].reason`, the filter
`{"issueReason": "x"}` rewrites to `{"details.issues[].reason": "x"}`, and
keys `"bool"` / `"range"` pass through unchanged. -/
theorem c5_rewrite_keys_matches_spec :
    (∀ (m : List (String × String)) (node : Json),
        replace_field_names_recursive m node = rewriteKeysSpec m node)
    ∧ (∀ (m : List (String × String)), replace_field_names_recursive m .null = .null)
    ∧ (∀ (m : List (String × String)) (b : Bool),
        replace_field_names_recursive m (.bool b) = .bool b)
    ∧ (∀ (m : List (String × String)) (n : Int),
        replace_field_names_recursive m (.num n) = .num n)
    ∧ (∀ (m : List (String × String)) (s : String),
        replace_field_names_recursive m (.str s) = .str s)
    ∧ resolve_aliases_in_filters (.obj (jdict [("issueReason", .str "x")]))
        ⟨[("details.issues[].reason", ⟨some "issueReason", false⟩)]⟩
        = .obj (jdict [("details.issues[].reason", .str "x")])
    ∧ resolve_aliases_in_filters
        (.obj (jdict [("bool", .obj (jdict [("range",
            .obj (jdict [("issueReason", .str "x"), ("other", .num 1)]))]))]))
        ⟨[("details.issues[].reason", ⟨some "issueReason", false⟩)]⟩
        = .obj (jdict [("bool", .obj (jdict [("range",
            .obj (jdict [("details.issues[].reason", .str "x"), ("other", .num 1)]))]))]) :=
  ⟨fun m node => replaceEqSpecJ m node, fun _ => rfl, fun _ _ => rfl, fun _ _ => rfl,
   fun _ _ => rfl, rfl, rfl⟩

/-! ### C9 -/

theorem pySplitChar_ne_nil (sep : Char) : ∀ l : List Char, pySplitChar sep l ≠ []
  | [] => by simp [pySplitChar]
  | c :: cs => by
      by_cases h : c = sep
      · simp [pySplitChar, h]
      · cases hsp : pySplitChar sep cs with
        | nil => simp [pySplitChar, h, hsp]
        | cons q qs => simp [pySplitChar, h, hsp]

theorem not_mem_of_mem_pySplitChar (sep : Char) :
    ∀ (l : List Char) (p : List Char), p ∈ pySplitChar sep l → sep ∉ p
  | [], p, hp => by
      simp [pySplitChar] at hp
      simp [hp]
  | c :: cs, p, hp => by
      by_cases h : c = sep
      · rw [pySplitChar, if_pos h] at hp
        rcases List.mem_cons.mp hp with h2 | h2
        · simp [h2]
        · exact not_mem_of_mem_pySplitChar sep cs p h2
      · rw [pySplitChar, if_neg h] at hp
        cases hsp : pySplitChar sep cs with
        | nil => exact absurd hsp (pySplitChar_ne_nil sep cs)
        | cons q qs =>
            rw [hsp] at hp
            rcases List.mem_cons.mp hp with h2 | h2
            · subst h2
              intro hmem
              rcases List.mem_cons.mp hmem with h3 | h3
              · exact h h3.symm
              · exact not_mem_of_mem_pySplitChar sep cs q (by simp [hsp]) h3
            · exact not_mem_of_mem_pySplitChar sep cs p (by simp [hsp, h2])

theorem mem_of_mem_pyStrip {c : Char} {l : List Char} (h : c ∈ pyStrip l) : c ∈ l := by
  unfold pyStrip at h
  rw [List.mem_reverse] at h
  have h2 := (List.dropWhile_sublist isPySpace).subset h
  rw [List.mem_reverse] at h2
  exact (List.dropWhile_sublist isPySpace).subset h2

theorem dropWhile_dropWhile (p : Char → Bool) :
    ∀ l : List Char, (l.dropWhile p).dropWhile p = l.dropWhile p
  | [] => rfl
  | c :: cs => by
      by_cases h : p c
      · rw [List.dropWhile_cons_of_pos h]
        exact dropWhile_dropWhile p cs
      · rw [List.dropWhile_cons_of_neg h, List.dropWhile_cons_of_neg h]

theorem head?_dropWhile (p : Char → Bool) :
    ∀ (l : List Char) (c : Char), (l.dropWhile p).head? = some c → p c = false
  | [], c, h => by simp at h
  | b :: bs, c, h => by
      by_cases hb : p b
      · rw [List.dropWhile_cons_of_pos hb] at h
        exact head?_dropWhile p bs c h
      · rw [List.dropWhile_cons_of_neg hb] at h
        simp at h
        subst h
        exact Bool.not_eq_true _ ▸ by simpa using hb

theorem getLast?_of_suffix {l s : List Char} (h : s <:+ l) (hs : s ≠ []) :
    s.getLast? = l.getLast? := by
  obtain ⟨t, rfl⟩ := h
  rw [List.getLast?_append]
  cases hg : s.getLast? with
  | none => exact absurd (List.getLast?_eq_none_iff.mp hg) hs
  | some c => simp

theorem dropWhile_strip_aux (p : Char → Bool) (l : List Char) :
    (((l.dropWhile p).reverse.dropWhile p).reverse).dropWhile p
      = ((l.dropWhile p).reverse.dropWhile p).reverse := by
  cases hBr : ((l.dropWhile p).reverse.dropWhile p).reverse with
  | nil => rfl
  | cons x xs =>
      have hBne : (l.dropWhile p).reverse.dropWhile p ≠ [] := by
        intro h0
        rw [h0] at hBr
        simp at hBr
      have h1 : ((l.dropWhile p).reverse.dropWhile p).getLast?
          = (l.dropWhile p).reverse.getLast? :=
        getLast?_of_suffix (List.dropWhile_suffix p) hBne
      have h3 : ((l.dropWhile p).reverse.dropWhile p).getLast? = some x := by
        rw [← List.head?_reverse, hBr]
        rfl
      have h4 : (l.dropWhile p).head? = some x := by
        rw [← List.getLast?_reverse, ← h1, h3]
      have h5 : p x = false := head?_dropWhile p l x h4
      rw [List.dropWhile_cons_of_neg (by simp [h5])]

theorem pyStrip_idem (l : List Char) : pyStrip (pyStrip l) = pyStrip l := by
  have h1 : (pyStrip l).dropWhile isPySpace = pyStrip l := dropWhile_strip_aux isPySpace l
  show (((pyStrip l).dropWhile isPySpace).reverse.dropWhile isPySpace).reverse = pyStrip l
  rw [h1]
  have h2 : (pyStrip l).reverse = (l.dropWhile isPySpace).reverse.dropWhile isPySpace := by
    rw [pyStrip, List.reverse_reverse]
  rw [h2, dropWhile_dropWhile]
  rfl

theorem pyStrip_space_cons (l : List Char) : pyStrip (' ' :: l) = pyStrip l := by
  unfold pyStrip
  rw [List.dropWhile_cons_of_pos (by simp [isPySpace])]

theorem pySplitChar_of_not_mem {sep : Char} : ∀ {l : List Char}, sep ∉ l →
    pySplitChar sep l = [l]
  | [], _ => rfl
  | c :: cs, h => by
      have hc : ¬(c = sep) := fun hh => h (by simp [hh])
      have hcs : sep ∉ cs := fun hh => h (by simp [hh])
      rw [pySplitChar, if_neg hc, pySplitChar_of_not_mem hcs]

theorem pySplitChar_append_cons (sep : Char) :
    ∀ (p t : List Char), sep ∉ p →
      pySplitChar sep (p ++ sep :: t) = p :: pySplitChar sep t
  | [], t, _ => by simp [pySplitChar]
  | c :: cs, t, h => by
      have hc : ¬(c = sep) := fun hh => h (by simp [hh])
      have hcs : sep ∉ cs := fun hh => h (by simp [hh])
      rw [List.cons_append, pySplitChar, if_neg hc,
        pySplitChar_append_cons sep cs t hcs]

theorem split_joinCS : ∀ (q : List Char) (ps : List (List Char)),
    (∀ p ∈ q :: ps, ',' ∉ p) →
    pySplitComma (joinCS (q :: ps)) = q :: ps.map (' ' :: ·)
  | q, [], h => by
      rw [joinCS]
      exact (by simpa using pySplitChar_of_not_mem (h q (by simp)) : _)
  | q, p :: ps, h => by
      rw [joinCS, pySplitComma, pySplitChar_append_cons ',' q _ (h q (by simp))]
      have ih := split_joinCS p ps (fun r hr => h r (List.mem_cons_of_mem q hr))
      rw [pySplitComma] at ih
      congr 1
      rw [pySplitChar, if_neg (by simp), ih]
      simp

theorem mem_dedupSeen {α : Type} [DecidableEq α] :
    ∀ (seen : List α) (l : List α) (x : α), x ∈ dedupSeen seen l → x ∈ l ∧ x ∉ seen
  | seen, [], x, h => by simp [dedupSeen] at h
  | seen, y :: ys, x, h => by
      by_cases hy : y ∈ seen
      · rw [dedupSeen, if_pos hy] at h
        have := mem_dedupSeen seen ys x h
        exact ⟨by simp [this.1], this.2⟩
      · rw [dedupSeen, if_neg hy] at h
        rcases List.mem_cons.mp h with h2 | h2
        · subst h2; exact ⟨by simp, hy⟩
        · have := mem_dedupSeen (seen ++ [y]) ys x h2
          refine ⟨by simp [this.1], fun hx => this.2 (by simp [hx])⟩

theorem dedupSeen_sublist {α : Type} [DecidableEq α] :
    ∀ (seen : List α) (l : List α), (dedupSeen seen l).Sublist l
  | seen, [] => by simp [dedupSeen]
  | seen, y :: ys => by
      by_cases hy : y ∈ seen
      · rw [dedupSeen, if_pos hy]
        exact (dedupSeen_sublist seen ys).cons y
      · rw [dedupSeen, if_neg hy]
        exact (dedupSeen_sublist (seen ++ [y]) ys).cons₂ y

theorem dedupSeen_eq_self {α : Type} [DecidableEq α] :
    ∀ (seen : List α) (l : List α), l.Nodup → (∀ x ∈ l, x ∉ seen) →
      dedupSeen seen l = l
  | seen, [], _, _ => rfl
  | seen, y :: ys, hnd, hs => by
      rw [dedupSeen, if_neg (hs y (by simp))]
      congr 1
      refine dedupSeen_eq_self (seen ++ [y]) ys (List.Nodup.of_cons hnd) ?_
      intro x hx hmem
      rcases List.mem_append.mp hmem with h2 | h2
      · exact hs x (by simp [hx]) h2
      · simp at h2
        subst h2
        exact (List.nodup_cons.mp hnd).1 hx

theorem dedupSeen_nodup {α : Type} [DecidableEq α] :
    ∀ (seen : List α) (l : List α), (dedupSeen seen l).Nodup
  | seen, [] => by simp [dedupSeen]
  | seen, y :: ys => by
      by_cases hy : y ∈ seen
      · rw [dedupSeen, if_pos hy]; exact dedupSeen_nodup seen ys
      · rw [dedupSeen, if_neg hy]
        refine List.nodup_cons.mpr ⟨?_, dedupSeen_nodup (seen ++ [y]) ys⟩
        intro hmem
        exact (mem_dedupSeen _ _ _ hmem).2 (by simp)

theorem dedupKeepFirst_idem {α : Type} [DecidableEq α] (l : List α) :
    dedupKeepFirst (dedupKeepFirst l) = dedupKeepFirst l :=
  dedupSeen_eq_self [] _ (dedupSeen_nodup [] l) (by simp)

theorem dedupKeepFirst_ne_nil {α : Type} [DecidableEq α] {x : α} {xs : List α} :
    dedupKeepFirst (x :: xs) ≠ [] := by
  rw [dedupKeepFirst, dedupSeen, if_neg (by simp)]
  simp

/-- Re-splitting the `", "`-join of comma-free, already-stripped items and
stripping again recovers exactly the items. -/
theorem itemsOf_mk_joinCS : ∀ (D : List (List Char)),
    D ≠ [] → (∀ p ∈ D, ',' ∉ p) → (∀ p ∈ D, pyStrip p = p) →
    (pySplitComma (joinCS D)).map pyStrip = D
  | [], hne, _, _ => absurd rfl hne
  | q :: ps, _, hcf, hst => by
      rw [split_joinCS q ps hcf]
      simp only [List.map_cons, List.map_map]
      rw [hst q (by simp)]
      congr 1
      have hmap : ∀ p ∈ ps, (pyStrip ∘ fun x => ' ' :: x) p = id p := by
        intro p hp
        show pyStrip (' ' :: p) = p
        rw [pyStrip_space_cons]
        exact hst p (by simp [hp])
      rw [List.map_congr_left hmap, List.map_id]

/-- C9: `deduplicate_field_values` is idempotent, and the comma-separated
items of its output are exactly the first-seen deduplication of the items
of its input — in particular the surviving items appear in first-occurrence
order (the item list of the output is a sublist of the item list of the
input). -/
theorem c9_deduplicate_idempotent_first_seen_order (s : String) :
    deduplicate_field_values (deduplicate_field_values s) = deduplicate_field_values s
    ∧ itemsOf (deduplicate_field_values s) = dedupKeepFirst (itemsOf s)
    ∧ (itemsOf (deduplicate_field_values s)).Sublist (itemsOf s) := by
  by_cases hs : s.toList = []
  · have hf : deduplicate_field_values s = s := by
      rw [deduplicate_field_values, if_pos (by simpa using hs)]
    have hitems : itemsOf s = [[]] := by
      simp [itemsOf, pySplitComma, show s.data = [] from hs, pySplitChar, pyStrip]
    refine ⟨by rw [hf, hf], ?_, ?_⟩
    · rw [hf, hitems]
      rfl
    · rw [hf, hitems]
  · have hcf : ∀ x ∈ dedupKeepFirst (itemsOf s), ',' ∉ x := by
      intro x hx hmem
      have hxL := (mem_dedupSeen [] (itemsOf s) x hx).1
      rw [itemsOf] at hxL
      obtain ⟨p, hp, rfl⟩ := List.mem_map.mp hxL
      exact not_mem_of_mem_pySplitChar ',' s.toList p hp (mem_of_mem_pyStrip hmem)
    have hst : ∀ x ∈ dedupKeepFirst (itemsOf s), pyStrip x = x := by
      intro x hx
      have hxL := (mem_dedupSeen [] (itemsOf s) x hx).1
      rw [itemsOf] at hxL
      obtain ⟨p, _, rfl⟩ := List.mem_map.mp hxL
      exact pyStrip_idem p
    have hDne : dedupKeepFirst (itemsOf s) ≠ [] := by
      rw [itemsOf]
      cases hL : pySplitComma s.toList with
      | nil => exact absurd hL (pySplitChar_ne_nil ',' s.toList)
      | cons p ps =>
          rw [List.map_cons]
          exact dedupKeepFirst_ne_nil
    have hf : deduplicate_field_values s
        = String.mk (joinCS (dedupKeepFirst (itemsOf s))) := by
      rw [deduplicate_field_values, if_neg (by simpa using hs)]
      rfl
    have hitems : itemsOf (deduplicate_field_values s) = dedupKeepFirst (itemsOf s) := by
      rw [hf]
      show (pySplitComma (joinCS (dedupKeepFirst (itemsOf s)))).map pyStrip
        = dedupKeepFirst (itemsOf s)
      exact itemsOf_mk_joinCS _ hDne hcf hst
    refine ⟨?_, hitems, hitems ▸ dedupSeen_sublist [] (itemsOf s)⟩
    by_cases hemp : (deduplicate_field_values s).toList = []
    · rw [deduplicate_field_values, if_pos (by simpa using hemp)]
    · rw [deduplicate_field_values, if_neg (by simpa using hemp)]
      show String.mk (joinCS (dedupKeepFirst (itemsOf (deduplicate_field_values s))))
        = deduplicate_field_values s
      rw [hitems, dedupKeepFirst_idem, hf]

/-! ### Path-segment parsing lemmas (for C6 and C8) -/

theorem splitFirstDot_no_dot : ∀ l : List Char, '.' ∉ l → splitFirstDot l = (l, none)
  | [], _ => rfl
  | c :: cs, h => by
      rw [splitFirstDot, if_neg (fun hc => h (by simp [hc]))]
      simp [splitFirstDot_no_dot cs (fun hm => h (by simp [hm]))]

theorem splitFirstDot_append : ∀ (a b : List Char), '.' ∉ a →
    splitFirstDot (a ++ '.' :: b) = (a, some b)
  | [], b, _ => by simp [splitFirstDot]
  | c :: cs, b, h => by
      rw [List.cons_append, splitFirstDot, if_neg (fun hc => h (by simp [hc]))]
      simp [splitFirstDot_append cs b (fun hm => h (by simp [hm]))]

theorem splitFirstLBrack_append : ∀ (a b : List Char), '[' ∉ a →
    splitFirstLBrack (a ++ '[' :: b) = (a, b)
  | [], b, _ => by simp [splitFirstLBrack]
  | c :: cs, b, h => by
      rw [List.cons_append, splitFirstLBrack, if_neg (fun hc => h (by simp [hc]))]
      simp [splitFirstLBrack_append cs b (fun hm => h (by simp [hm]))]

mutual
theorem mem_digCore : ∀ (acc : Nat) (l : List Char) (n : Nat) (c : Char),
    digCore acc l = some n → c ∈ l → c.isDigit = true ∨ c = '_'
  | _, [], _, c, _, hc => absurd hc (List.not_mem_nil c)
  | acc, d :: ds, n, c, h, hc => by
      rw [digCore] at h
      by_cases hd : d.isDigit
      · rw [if_pos hd] at h
        rcases List.mem_cons.mp hc with rfl | hc2
        · exact Or.inl hd
        · exact mem_digCore _ ds n c h hc2
      · rw [if_neg hd] at h
        by_cases hu : d = '_'
        · rw [if_pos hu] at h
          rcases List.mem_cons.mp hc with rfl | hc2
          · exact Or.inr hu
          · exact mem_digUnder _ ds n c h hc2
        · rw [if_neg hu] at h
          exact absurd h (by simp)
theorem mem_digUnder : ∀ (acc : Nat) (l : List Char) (n : Nat) (c : Char),
    digUnder acc l = some n → c ∈ l → c.isDigit = true ∨ c = '_'
  | _, [], _, c, _, hc => absurd hc (List.not_mem_nil c)
  | acc, e :: es, n, c, h, hc => by
      rw [digUnder] at h
      by_cases he : e.isDigit
      · rw [if_pos he] at h
        rcases List.mem_cons.mp hc with rfl | hc2
        · exact Or.inl he
        · exact mem_digCore _ es n c h hc2
      · rw [if_neg he] at h
        exact absurd h (by simp)
end

theorem mem_pyDigits (l : List Char) (n : Nat) (c : Char)
    (h : pyDigits? l = some n) (hc : c ∈ l) : c.isDigit = true ∨ c = '_' := by
  cases l with
  | nil => exact absurd hc (List.not_mem_nil c)
  | cons d ds =>
      rw [pyDigits?] at h
      by_cases hd : d.isDigit
      · rw [if_pos hd] at h
        rcases List.mem_cons.mp hc with rfl | hc2
        · exact Or.inl hd
        · exact mem_digCore _ ds n c h hc2
      · rw [if_neg hd] at h
        exact absurd h (by simp)

theorem mem_dropWhile_or (p : Char → Bool) :
    ∀ (l : List Char) (c : Char), c ∈ l → c ∈ l.dropWhile p ∨ p c = true
  | [], c, hc => absurd hc (List.not_mem_nil c)
  | d :: ds, c, hc => by
      by_cases hd : p d
      · rw [List.dropWhile_cons_of_pos hd]
        rcases List.mem_cons.mp hc with rfl | hc2
        · exact Or.inr hd
        · exact mem_dropWhile_or p ds c hc2
      · rw [List.dropWhile_cons_of_neg hd]
        exact Or.inl hc

theorem mem_pyStrip_or (l : List Char) (c : Char) (hc : c ∈ l) :
    c ∈ pyStrip l ∨ isPySpace c = true := by
  unfold pyStrip
  rcases mem_dropWhile_or isPySpace l c hc with h1 | h1
  · rcases mem_dropWhile_or isPySpace _ c (List.mem_reverse.mpr h1) with h2 | h2
    · exact Or.inl (List.mem_reverse.mpr h2)
    · exact Or.inr h2
  · exact Or.inr h1

theorem pyInt?_chars (l : List Char) (i : Int) (h : pyInt? l = some i) :
    ∀ c ∈ l, isPySpace c = true ∨ c = '+' ∨ c = '-' ∨ c.isDigit = true ∨ c = '_' := by
  intro c hc
  rcases mem_pyStrip_or l c hc with h1 | h1
  · rw [pyInt?] at h
    cases hs : pyStrip l with
    | nil => rw [hs] at h1; exact absurd h1 (List.not_mem_nil c)
    | cons d r =>
        rw [hs] at h h1
        rw [pyIntCore] at h
        by_cases hp : d = '+'
        · rw [if_pos hp] at h
          obtain ⟨n, hn, _⟩ := Option.map_eq_some'.mp h
          rcases List.mem_cons.mp h1 with rfl | h2
          · exact Or.inr (Or.inl hp)
          · rcases mem_pyDigits r n c hn h2 with h3 | h3
            · exact Or.inr (Or.inr (Or.inr (Or.inl h3)))
            · exact Or.inr (Or.inr (Or.inr (Or.inr h3)))
        · rw [if_neg hp] at h
          by_cases hm : d = '-'
          · rw [if_pos hm] at h
            obtain ⟨n, hn, _⟩ := Option.map_eq_some'.mp h
            rcases List.mem_cons.mp h1 with rfl | h2
            · exact Or.inr (Or.inr (Or.inl hm))
            · rcases mem_pyDigits r n c hn h2 with h3 | h3
              · exact Or.inr (Or.inr (Or.inr (Or.inl h3)))
              · exact Or.inr (Or.inr (Or.inr (Or.inr h3)))
          · rw [if_neg hm] at h
            obtain ⟨n, hn, _⟩ := Option.map_eq_some'.mp h
            rcases mem_pyDigits (d :: r) n c hn h1 with h3 | h3
            · exact Or.inr (Or.inr (Or.inr (Or.inl h3)))
            · exact Or.inr (Or.inr (Or.inr (Or.inr h3)))
  · exact Or.inl h1

theorem pyInt?_ne_nil (l : List Char) (i : Int) (h : pyInt? l = some i) : l ≠ [] := by
  rintro rfl
  rw [pyInt?, show pyStrip [] = [] from rfl, pyIntCore] at h
  exact Option.noConfusion h

theorem pyInt?_nonneg (l : List Char) (i : Int) (hminus : '-' ∉ l)
    (h : pyInt? l = some i) : 0 ≤ i := by
  rw [pyInt?] at h
  cases hs : pyStrip l with
  | nil => rw [hs, pyIntCore] at h; exact absurd h (by simp)
  | cons d r =>
      rw [hs, pyIntCore] at h
      by_cases hp : d = '+'
      · rw [if_pos hp] at h
        obtain ⟨n, _, hni⟩ := Option.map_eq_some'.mp h
        exact hni ▸ Int.ofNat_nonneg n
      · rw [if_neg hp] at h
        by_cases hm : d = '-'
        · exact absurd (mem_of_mem_pyStrip (hs ▸ List.mem_cons_self d r)) (hm ▸ hminus)
        · rw [if_neg hm] at h
          obtain ⟨n, _, hni⟩ := Option.map_eq_some'.mp h
          exact hni ▸ Int.ofNat_nonneg n

theorem pyIntChar_ne (c : Char)
    (h : isPySpace c = true ∨ c = '+' ∨ c = '-' ∨ c.isDigit = true ∨ c = '_') :
    c ≠ '.' ∧ c ≠ '[' ∧ c ≠ ']' := by
  refine ⟨?_, ?_, ?_⟩ <;> rintro rfl <;> revert h <;> decide

theorem pyInt?_not_special (l : List Char) (i : Int) (h : pyInt? l = some i) :
    '.' ∉ l ∧ '[' ∉ l ∧ ']' ∉ l := by
  refine ⟨fun hm => ?_, fun hm => ?_, fun hm => ?_⟩
  · exact (pyIntChar_ne _ (pyInt?_chars l i h _ hm)).1 rfl
  · exact (pyIntChar_ne _ (pyInt?_chars l i h _ hm)).2.1 rfl
  · exact (pyIntChar_ne _ (pyInt?_chars l i h _ hm)).2.2 rfl

/-! ### C8 -/

/-- C8 counterexample: the segment `foo[bar]` has bracket shape but a
non-integer index, so `_traverse_path` returns `None` (lines 64-67) without
ever looking up the literal key `"foo[bar]"` — on `{"foo[bar]": 7}` the
claimed plain-field treatment would have produced `7`. -/
theorem c8_counterexample :
    get_nested_value (.obj (jdict [("foo[bar]", .num 7)])) "foo[bar]" = .ok .null
    ∧ (Except.ok Json.null : Except Unit Json) ≠ .ok (.num 7) :=
  ⟨rfl, by simp⟩

/-- C8 (amended): evaluation accepts every path string and never fails to
parse; but segments are *not* uniformly treated as plain fields: a segment
that contains `'['` and ends with `']'` (other than the `name[]` form) whose
bracket content does not parse as an integer evaluates to Absent on *every*
document, regardless of whether the document has the segment as a literal
key; only segments not of that bracket shape are treated as plain literal
fields (key lookup, Absent exactly when the key is missing). -/
theorem c8_amended_nonmatching_segments :
    (∀ (seg : String) (d : Json),
        '.' ∉ seg.toList → '[' ∈ seg.toList → seg.toList.getLast? = some ']' →
        endsBrackets seg.toList = false →
        pyInt? ((splitFirstLBrack seg.toList).2.dropLast) = none →
        get_nested_value d seg = .ok .null)
    ∧ (∀ (seg : String) (kvs : JDict),
        seg.toList ≠ [] → '.' ∉ seg.toList →
        ¬('[' ∈ seg.toList ∧ seg.toList.getLast? = some ']') →
        endsBrackets seg.toList = false →
        get_nested_value (.obj kvs) seg = .ok ((lookupD kvs seg).getD .null)) := by
  constructor
  · intro seg d hdot hbr hlast hends hint
    have hne : seg.toList.isEmpty = false := by
      cases h : seg.toList with
      | nil => rw [h] at hbr; exact absurd hbr (List.not_mem_nil _)
      | cons c cs => rfl
    have hcontains : seg.toList.contains '[' = true := by
      simpa [List.contains] using hbr
    rw [get_nested_value]
    rw [show trav (seg.toList.length + 1) d seg.toList
          = travStep (trav seg.toList.length) d seg.toList from rfl]
    rw [travStep]
    simp only [hne, Bool.false_eq_true, if_false, splitFirstDot_no_dot seg.toList hdot,
      hends, hcontains, hlast, hint]
    simp
  · intro seg kvs hne hdot hnotidx hends
    have hne' : seg.toList.isEmpty = false := by
      cases h : seg.toList with
      | nil => exact absurd h hne
      | cons c cs => rfl
    have hcond : (seg.toList.contains '[' && decide (seg.toList.getLast? = some ']')) = false := by
      simp only [Bool.and_eq_false_iff, List.contains, List.elem_eq_mem,
        decide_eq_false_iff_not]
      by_cases hbr : '[' ∈ seg.toList
      · exact Or.inr (fun hl => hnotidx ⟨hbr, hl⟩)
      · exact Or.inl hbr
    rw [get_nested_value]
    rw [show trav (seg.toList.length + 1) (Json.obj kvs) seg.toList
          = travStep (trav seg.toList.length) (Json.obj kvs) seg.toList from rfl]
    rw [travStep]
    simp only [hne', Bool.false_eq_true, if_false, splitFirstDot_no_dot seg.toList hdot, hends]
    simp only [hcond, Bool.false_eq_true, if_false]
    rw [mk_toList]
    cases hlk : lookupD kvs seg with
    | none => simp
    | some v => simp

/-- C8 witness: the amended theorem at the bracket-shaped segment `a[x]`
over `{"a[x]": 1}` (Absent despite the literal key) and at the plain
segment `plain` over `{"plain": 1}`. -/
theorem c8_amended_nonmatching_segments_witness :
    get_nested_value (.obj (jdict [("a[x]", .num 1)])) "a[x]" = .ok .null
    ∧ get_nested_value (.obj (jdict [("plain", .num 1)])) "plain"
        = .ok ((lookupD (jdict [("plain", .num 1)]) "plain").getD .null) :=
  ⟨c8_amended_nonmatching_segments.1 "a[x]" (.obj (jdict [("a[x]", .num 1)]))
      (by decide) (by decide) (by decide) (by decide) (by decide),
   c8_amended_nonmatching_segments.2 "plain" (jdict [("plain", .num 1)])
      (by decide) (by decide) (by decide) (by decide)⟩

/-! ### C6 -/

/-- Reduction of one `_traverse_path` step on a segment `name[s]` whose
bracket content parses as the integer `i`: the step lands in the
array-index branch. -/
theorem trav_seg_index_reduce (n : Nat) (ob : Json) (path : List Char)
    (rest? : Option (List Char)) (name s : String) (i : Int)
    (hsplit : splitFirstDot path = (name.toList ++ '[' :: (s.toList ++ [']']), rest?))
    (hne : path ≠ [])
    (hnb : '[' ∉ name.toList)
    (hi : pyInt? s.toList = some i) :
    trav (n + 1) ob path
      = (match ob with
         | .obj kvs =>
             (match lookupD kvs name with
              | some (.arr items) =>
                  if ((elemsL items).length : Int) ≤ i then .ok .null
                  else if 0 ≤ i then
                    (if (rest?.getD []).isEmpty then
                        .ok ((elemsL items).getD i.toNat .null)
                      else trav n ((elemsL items).getD i.toNat .null) (rest?.getD []))
                  else if 0 ≤ ((elemsL items).length : Int) + i then
                    (if (rest?.getD []).isEmpty then
                        .ok ((elemsL items).getD (((elemsL items).length : Int) + i).toNat .null)
                      else trav n ((elemsL items).getD (((elemsL items).length : Int) + i).toNat .null)
                        (rest?.getD []))
                  else .error ()
              | some _ => .ok .null
              | none => .ok .null)
         | _ => .ok .null) := by
  obtain ⟨hsd, hsb, hsr⟩ := pyInt?_not_special s.toList i hi
  have hsne : s.toList ≠ [] := pyInt?_ne_nil s.toList i hi
  have hne' : path.isEmpty = false := by
    cases h : path with
    | nil => exact absurd h hne
    | cons c cs => rfl
  have hrev : (name.toList ++ '[' :: (s.toList ++ [']'])).reverse
      = ']' :: (s.toList.reverse ++ '[' :: name.toList.reverse) := by
    simp
  have hends : endsBrackets (name.toList ++ '[' :: (s.toList ++ [']'])) = false := by
    rw [endsBrackets, hrev]
    cases hsrev : s.toList.reverse with
    | nil => exact absurd (by simpa using hsrev) hsne
    | cons c cs =>
        have hcmem : c ∈ s.toList := List.mem_reverse.mp (hsrev ▸ List.mem_cons_self c cs)
        have hcne : ¬(c = '[') := fun hc => hsb (hc ▸ hcmem)
        simp [hcne]
  have hcontains : (name.toList ++ '[' :: (s.toList ++ [']'])).contains '[' = true := by
    simp [List.contains]
  have hlast : (name.toList ++ '[' :: (s.toList ++ [']'])).getLast? = some ']' := by
    rw [show name.toList ++ '[' :: (s.toList ++ [']'])
          = (name.toList ++ '[' :: s.toList) ++ [']'] by simp]
    exact List.getLast?_concat _
  have hsplitbr : splitFirstLBrack (name.toList ++ '[' :: (s.toList ++ [']']))
      = (name.toList, s.toList ++ [']']) := splitFirstLBrack_append _ _ hnb
  rw [show trav (n + 1) ob path = travStep (trav n) ob path from rfl]
  rw [travStep]
  simp only [hne', Bool.false_eq_true, if_false, hsplit, hends, hcontains, hlast,
    hsplitbr, List.dropLast_concat, hi, mk_toList]
  simp

/-- Reduction of one `_traverse_path` step on a segment `name[]` whose
`name` holds a non-list value: the flatten branch returns `None`. -/
theorem trav_flatseg_nonarr (n : Nat) (kvs : JDict) (name : String)
    (rest? : Option (List Char)) (path : List Char) (v : Json)
    (hsplit : splitFirstDot path = (name.toList ++ ['[', ']'], rest?))
    (hne : path ≠ [])
    (hlk : lookupD kvs name = some v)
    (hv : ∀ xs, v ≠ .arr xs) :
    trav (n + 1) (.obj kvs) path = .ok .null := by
  have hne' : path.isEmpty = false := by
    cases h : path with
    | nil => exact absurd h hne
    | cons c cs => rfl
  have hends : endsBrackets (name.toList ++ ['[', ']']) = true := by
    rw [endsBrackets]
    simp
  have hdrop : (name.toList ++ ['[', ']']).dropLast.dropLast = name.toList := by
    rw [show name.toList ++ ['[', ']'] = (name.toList ++ ['[']) ++ [']'] by simp,
      List.dropLast_concat, List.dropLast_concat]
  rw [show trav (n + 1) (Json.obj kvs) path = travStep (trav n) (Json.obj kvs) path from rfl]
  rw [travStep]
  cases v with
  | arr xs => exact absurd rfl (hv xs)
  | null =>
      simp only [hne', Bool.false_eq_true, if_false, hsplit, hends, if_true, hdrop,
        mk_toList, hlk]
  | bool b =>
      simp only [hne', Bool.false_eq_true, if_false, hsplit, hends, if_true, hdrop,
        mk_toList, hlk]
  | num m =>
      simp only [hne', Bool.false_eq_true, if_false, hsplit, hends, if_true, hdrop,
        mk_toList, hlk]
  | str s =>
      simp only [hne', Bool.false_eq_true, if_false, hsplit, hends, if_true, hdrop,
        mk_toList, hlk]
  | obj d =>
      simp only [hne', Bool.false_eq_true, if_false, hsplit, hends, if_true, hdrop,
        mk_toList, hlk]

theorem toList_append (a b : String) : (a ++ b).toList = a.toList ++ b.toList :=
  String.data_append a b

/-- C6 counterexample: on `{"a": [1,2,3]}` the path `a[-1]` returns `3`
(Python negative indexing at line 76), not Absent, and `a[-5]` raises an
`IndexError` — refuting both "i < 0 yields Absent" and "never raises". -/
theorem c6_counterexample :
    get_nested_value (.obj (jdict [("a", .arr (jlist [.num 1, .num 2, .num 3]))])) "a[-1]"
      = .ok (.num 3)
    ∧ (Except.ok (Json.num 3) : Except Unit Json) ≠ .ok .null
    ∧ get_nested_value (.obj (jdict [("a", .arr (jlist [.num 1, .num 2, .num 3]))])) "a[-5]"
      = .error () :=
  ⟨rfl, by simp, rfl⟩

/-- C6 (amended): for a document with an array of `n` elements at `name`
and a bracket segment `name[s]` whose content parses as the integer `i`:
an index `i ≥ n` yields Absent (with or without a remaining path); an
in-range non-negative `i` yields element `i`; a negative `i` with
`-n ≤ i` yields element `n + i` (Python negative indexing) rather than
Absent; `i < -n` raises; and when the value at `name` is not an array, both
`name[s]` and `name[]` yield Absent (never raising). -/
theorem c6_amended_array_index_semantics
    (kvs : JDict) (name s rest : String) (i : Int)
    (hnd : '.' ∉ name.toList) (hnb : '[' ∉ name.toList)
    (hi : pyInt? s.toList = some i) :
    (∀ xs : JList, lookupD kvs name = some (.arr xs) →
        ((elemsL xs).length : Int) ≤ i →
        get_nested_value (.obj kvs) (name ++ "[" ++ s ++ "]") = .ok .null
        ∧ get_nested_value (.obj kvs) (name ++ "[" ++ s ++ "]" ++ "." ++ rest) = .ok .null)
    ∧ (∀ xs : JList, lookupD kvs name = some (.arr xs) →
        0 ≤ i → i < ((elemsL xs).length : Int) →
        get_nested_value (.obj kvs) (name ++ "[" ++ s ++ "]")
          = .ok ((elemsL xs).getD i.toNat .null))
    ∧ (∀ xs : JList, lookupD kvs name = some (.arr xs) →
        -((elemsL xs).length : Int) ≤ i → i < 0 →
        get_nested_value (.obj kvs) (name ++ "[" ++ s ++ "]")
          = .ok ((elemsL xs).getD (((elemsL xs).length : Int) + i).toNat .null))
    ∧ (∀ xs : JList, lookupD kvs name = some (.arr xs) →
        i < -((elemsL xs).length : Int) →
        get_nested_value (.obj kvs) (name ++ "[" ++ s ++ "]") = .error ())
    ∧ (∀ v : Json, lookupD kvs name = some v → (∀ xs, v ≠ .arr xs) →
        get_nested_value (.obj kvs) (name ++ "[" ++ s ++ "]") = .ok .null
        ∧ get_nested_value (.obj kvs) (name ++ "[]") = .ok .null) := by
  obtain ⟨hsd, hsb, hsr⟩ := pyInt?_not_special s.toList i hi
  have hdotseg : '.' ∉ name.toList ++ '[' :: (s.toList ++ [']']) := by
    intro hm
    rcases List.mem_append.mp hm with h | h
    · exact hnd h
    · rcases List.mem_cons.mp h with h2 | h2
      · exact absurd h2 (by decide)
      · rcases List.mem_append.mp h2 with h3 | h3
        · exact hsd h3
        · simp at h3
  have hsegne : name.toList ++ '[' :: (s.toList ++ [']']) ≠ [] := by simp
  have hpath1 : (name ++ "[" ++ s ++ "]").toList
      = name.toList ++ '[' :: (s.toList ++ [']']) := by
    rw [toList_append, toList_append, toList_append]
    simp [show "[".toList = ['['] from rfl, show "]".toList = [']'] from rfl]
  have hpath2 : (name ++ "[" ++ s ++ "]" ++ "." ++ rest).toList
      = (name.toList ++ '[' :: (s.toList ++ [']'])) ++ '.' :: rest.toList := by
    rw [toList_append, toList_append, hpath1]
    simp [show ".".toList = ['.'] from rfl]
  have hred1 := fun ob => trav_seg_index_reduce
      ((name.toList ++ '[' :: (s.toList ++ [']'])).length)
      ob (name.toList ++ '[' :: (s.toList ++ [']'])) none name s i
      (splitFirstDot_no_dot _ hdotseg) hsegne hnb hi
  have hred2 := fun ob => trav_seg_index_reduce
      (((name.toList ++ '[' :: (s.toList ++ [']'])) ++ '.' :: rest.toList).length)
      ob ((name.toList ++ '[' :: (s.toList ++ [']'])) ++ '.' :: rest.toList)
      (some rest.toList) name s i
      (splitFirstDot_append _ _ hdotseg) (by simp) hnb hi
  refine ⟨?_, ?_, ?_, ?_, ?_⟩
  · intro xs hlk hle
    constructor
    · rw [get_nested_value]
      conv_lhs => rw [hpath1]
      rw [hred1 (Json.obj kvs)]
      simp only [hlk]
      rw [if_pos hle]
    · rw [get_nested_value]
      conv_lhs => rw [hpath2]
      rw [hred2 (Json.obj kvs)]
      simp only [hlk]
      rw [if_pos hle]
  · intro xs hlk h0 hlt
    rw [get_nested_value]
    conv_lhs => rw [hpath1]
    rw [hred1 (Json.obj kvs)]
    simp only [hlk]
    rw [if_neg (not_le.mpr hlt), if_pos h0]
    rfl
  · intro xs hlk hge hneg
    rw [get_nested_value]
    conv_lhs => rw [hpath1]
    rw [hred1 (Json.obj kvs)]
    simp only [hlk]
    have hn : (0 : Int) ≤ ((elemsL xs).length : Int) := Int.natCast_nonneg _
    have h1 : ¬(((elemsL xs).length : Int) ≤ i) := by linarith
    have h2 : ¬(0 ≤ i) := not_le.mpr hneg
    have h3 : 0 ≤ ((elemsL xs).length : Int) + i := by linarith
    rw [if_neg h1, if_neg h2, if_pos h3]
    rfl
  · intro xs hlk hlt
    rw [get_nested_value]
    conv_lhs => rw [hpath1]
    rw [hred1 (Json.obj kvs)]
    simp only [hlk]
    have hn : (0 : Int) ≤ ((elemsL xs).length : Int) := Int.natCast_nonneg _
    have h1 : ¬(((elemsL xs).length : Int) ≤ i) := by linarith
    have h2 : ¬(0 ≤ i) := by linarith
    have h3 : ¬(0 ≤ ((elemsL xs).length : Int) + i) := by linarith
    rw [if_neg h1, if_neg h2, if_neg h3]
  · intro v hlk hv
    constructor
    · cases v with
      | arr xs => exact absurd rfl (hv xs)
      | null =>
          rw [get_nested_value]
          conv_lhs => rw [hpath1]
          rw [hred1 (Json.obj kvs)]
          simp only [hlk]
      | bool b =>
          rw [get_nested_value]
          conv_lhs => rw [hpath1]
          rw [hred1 (Json.obj kvs)]
          simp only [hlk]
      | num m =>
          rw [get_nested_value]
          conv_lhs => rw [hpath1]
          rw [hred1 (Json.obj kvs)]
          simp only [hlk]
      | str t =>
          rw [get_nested_value]
          conv_lhs => rw [hpath1]
          rw [hred1 (Json.obj kvs)]
          simp only [hlk]
      | obj d =>
          rw [get_nested_value]
          conv_lhs => rw [hpath1]
          rw [hred1 (Json.obj kvs)]
          simp only [hlk]
    · have hpath3 : (name ++ "[]").toList = name.toList ++ ['[', ']'] := by
        rw [toList_append]
        simp [show "[]".toList = ['[', ']'] from rfl]
      rw [get_nested_value]
      conv_lhs => rw [hpath3]
      exact trav_flatseg_nonarr _ kvs name none _ v
        (splitFirstDot_no_dot _ (by
          intro hm
          rcases List.mem_append.mp hm with h | h
          · exact hnd h
          · simp at h))
        (by simp) hlk hv

/-- C6 witness: the amended theorem applied to `{"a": [1,2,3]}` with the
out-of-range index segment `a[5]`, with and without a remaining path. -/
theorem c6_amended_array_index_semantics_witness :
    get_nested_value (.obj (jdict [("a", .arr (jlist [.num 1, .num 2, .num 3]))])) "a[5]"
      = .ok .null
    ∧ get_nested_value (.obj (jdict [("a", .arr (jlist [.num 1, .num 2, .num 3]))])) "a[5].x"
      = .ok .null :=
  (c6_amended_array_index_semantics (jdict [("a", .arr (jlist [.num 1, .num 2, .num 3]))])
      "a" "5" "x" 5 (by decide) (by decide) (by decide)).1
    (jlist [.num 1, .num 2, .num 3]) rfl (by decide)

/-! ### C1 -/

theorem mem_splitFirstDot_fst : ∀ (l : List Char) (c : Char),
    c ∈ (splitFirstDot l).1 → c ∈ l
  | [], c, h => by simp [splitFirstDot] at h
  | d :: ds, c, h => by
      by_cases hd : d = '.'
      · rw [splitFirstDot, if_pos hd] at h
        simp at h
      · rw [splitFirstDot, if_neg hd] at h
        simp only [List.mem_cons] at h
        rcases h with rfl | h
        · exact List.mem_cons_self _ _
        · exact List.mem_cons_of_mem d (mem_splitFirstDot_fst ds c h)

theorem mem_splitFirstDot_snd : ∀ (l r : List Char) (c : Char),
    (splitFirstDot l).2 = some r → c ∈ r → c ∈ l
  | [], r, c, h, _ => by simp [splitFirstDot] at h
  | d :: ds, r, c, h, hc => by
      by_cases hd : d = '.'
      · rw [splitFirstDot, if_pos hd] at h
        simp at h
        subst h
        exact List.mem_cons_of_mem d hc
      · rw [splitFirstDot, if_neg hd] at h
        simp at h
        exact List.mem_cons_of_mem d (mem_splitFirstDot_snd ds r c h hc)

theorem splitFirstDot_snd_length : ∀ (l r : List Char),
    (splitFirstDot l).2 = some r → r.length < l.length
  | [], r, h => by simp [splitFirstDot] at h
  | d :: ds, r, h => by
      by_cases hd : d = '.'
      · rw [splitFirstDot, if_pos hd] at h
        simp at h
        subst h
        simp
      · rw [splitFirstDot, if_neg hd] at h
        simp at h
        exact Nat.lt_succ_of_lt (splitFirstDot_snd_length ds r h)

theorem mem_splitFirstLBrack_snd : ∀ (l : List Char) (c : Char),
    c ∈ (splitFirstLBrack l).2 → c ∈ l
  | [], c, h => by simp [splitFirstLBrack] at h
  | d :: ds, c, h => by
      by_cases hd : d = '['
      · rw [splitFirstLBrack, if_pos hd] at h
        simp at h
        exact List.mem_cons_of_mem d h
      · rw [splitFirstLBrack, if_neg hd] at h
        simp at h
        exact List.mem_cons_of_mem d (mem_splitFirstLBrack_snd ds c h)

theorem travFlatAux_ne_error (rec : Json → List Char → Except Unit Json)
    (restPath : List Char)
    (hrec : restPath.isEmpty = false → ∀ it, rec it restPath ≠ .error ()) :
    ∀ items : List Json, travFlatAux rec restPath items ≠ .error ()
  | [] => by simp [travFlatAux]
  | it :: its => by
      rw [travFlatAux]
      by_cases hre : restPath.isEmpty
      · simp only [hre, if_true, bind, Except.bind]
        cases htail : travFlatAux rec restPath its with
        | error e =>
            cases e
            exact absurd htail (travFlatAux_ne_error rec restPath hrec its)
        | ok tail => cases it <;> simp
      · simp only [hre, Bool.false_eq_true, if_false, bind, Except.bind]
        cases hv : rec it restPath with
        | error e =>
            cases e
            exact absurd hv (hrec (by simpa using hre) it)
        | ok v =>
            simp only [hv]
            cases htail : travFlatAux rec restPath its with
            | error e =>
                cases e
                exact absurd htail (travFlatAux_ne_error rec restPath hrec its)
            | ok tail =>
                simp only [htail]
                cases v <;> simp

/-- One `_traverse_path` step on a segment without `'-'` never raises,
provided the recursive evaluation of the (nonempty) remaining path never
raises: the only raise point is a negative index below `-len`, which needs
a `'-'` in the segment. -/
theorem travStep_ne_error (n : Nat) (ob : Json) (path : List Char)
    (hne : path.isEmpty = false)
    (hrp : ∀ v : Json, ((splitFirstDot path).2.getD []) ≠ [] →
        trav n v ((splitFirstDot path).2.getD []) ≠ .error ())
    (hmfp : '-' ∉ (splitFirstDot path).1) :
    travStep (trav n) ob path ≠ .error () := by
  rw [travStep]
  simp only [hne, Bool.false_eq_true, if_false]
  have hrec : ((splitFirstDot path).2.getD []).isEmpty = false →
      ∀ it, trav n it ((splitFirstDot path).2.getD []) ≠ .error () := by
    intro hie it
    refine hrp it ?_
    cases h : (splitFirstDot path).2.getD [] with
    | nil => rw [h] at hie; exact absurd hie (by simp)
    | cons c cs => simp [h]
  by_cases heb : endsBrackets (splitFirstDot path).1
  · simp only [heb, if_true]
    cases ob with
    | obj kvs =>
        cases hlk : lookupD kvs (String.mk ((splitFirstDot path).1.dropLast.dropLast)) with
        | none => simp [hlk]
        | some v =>
            cases v with
            | arr items =>
                simp only [hlk]
                have hfa := travFlatAux_ne_error (trav n) _ hrec (elemsL items)
                cases hres : travFlatAux (trav n) ((splitFirstDot path).2.getD [])
                    (elemsL items) with
                | error e => cases e; exact absurd hres hfa
                | ok results =>
                    simp only [hres, bind, Except.bind]
                    by_cases hri : results.isEmpty <;> simp [hri]
            | null => simp [hlk]
            | bool b => simp [hlk]
            | num m => simp [hlk]
            | str s => simp [hlk]
            | obj d => simp [hlk]
    | null => simp
    | bool b => simp
    | num m => simp
    | str s => simp
    | arr xs => simp
  · simp only [heb, Bool.false_eq_true, if_false]
    by_cases hbl : ((splitFirstDot path).1.contains '['
        && decide ((splitFirstDot path).1.getLast? = some ']')) = true
    · simp only [hbl, if_true]
      cases hpy : pyInt? ((splitFirstLBrack (splitFirstDot path).1).2.dropLast) with
      | none => simp [hpy]
      | some idx =>
          simp only [hpy]
          have hidx : 0 ≤ idx := by
            refine pyInt?_nonneg _ idx (fun hc => ?_) hpy
            exact hmfp (mem_splitFirstLBrack_snd _ '-' ((List.dropLast_sublist _).subset hc))
          cases ob with
          | obj kvs =>
              cases hlk : lookupD kvs (String.mk (splitFirstLBrack (splitFirstDot path).1).1) with
              | none => simp [hlk]
              | some v =>
                  cases v with
                  | arr items =>
                      simp only [hlk]
                      by_cases hle : ((elemsL items).length : Int) ≤ idx
                      · simp [hle]
                      · simp only [hle, if_false]
                        simp only [hidx, if_true]
                        by_cases hri : ((splitFirstDot path).2.getD []).isEmpty
                        · simp [hri]
                        · simp only [hri, Bool.false_eq_true, if_false]
                          exact hrec (by simpa using hri) _
                  | null => simp [hlk]
                  | bool b => simp [hlk]
                  | num m => simp [hlk]
                  | str s => simp [hlk]
                  | obj d => simp [hlk]
          | null => simp
          | bool b => simp
          | num m => simp
          | str s => simp
          | arr xs => simp
    · simp only [hbl, Bool.false_eq_true, if_false]
      cases ob with
      | obj kvs =>
          cases hlk : lookupD kvs (String.mk (splitFirstDot path).1) with
          | none => simp [hlk]
          | some v =>
              simp only [hlk]
              by_cases hri : ((splitFirstDot path).2.getD []).isEmpty
              · simp [hri]
              · simp only [hri, Bool.false_eq_true, if_false]
                exact hrec (by simpa using hri) _
      | null => simp
      | bool b => simp
      | num m => simp
      | str s => simp
      | arr xs => simp

/-- `_traverse_path` on a path without `'-'` never raises (sufficient
fuel assumed). -/
theorem trav_no_minus : ∀ (n : Nat) (path : List Char) (ob : Json),
    path.length < n → '-' ∉ path → trav n ob path ≠ Except.error ()
  | 0, _, _, hlen, _ => absurd hlen (Nat.not_lt_zero _)
  | n + 1, path, ob, hlen, hm => by
      by_cases hpe : path.isEmpty
      · rw [show trav (n + 1) ob path = travStep (trav n) ob path from rfl, travStep]
        simp [hpe]
      · rw [show trav (n + 1) ob path = travStep (trav n) ob path from rfl]
        refine travStep_ne_error n ob path (by simpa using hpe) ?_ ?_
        · intro v hne2
          cases hsp : (splitFirstDot path).2 with
          | none => rw [hsp] at hne2; exact absurd rfl hne2
          | some r =>
              exact trav_no_minus n r v
                (Nat.lt_of_lt_of_le (splitFirstDot_snd_length path r hsp)
                  (Nat.lt_succ_iff.mp hlen))
                (fun hc => hm (mem_splitFirstDot_snd path r '-' hsp hc))
        · exact fun hc => hm (mem_splitFirstDot_fst path '-' hc)

/-- `get_nested_value` on a path without `'-'` never raises. -/
theorem get_nested_value_no_minus (ob : Json) (p : String) (hm : '-' ∉ p.toList) :
    get_nested_value ob p ≠ Except.error () :=
  trav_no_minus (p.toList.length + 1) p.toList ob (Nat.lt_succ_self _) hm

theorem writeNoAlias_ok (ns : Json) (fieldName : String) (value : Json)
    (hd : '.' ∉ fieldName.toList) :
    writeNoAlias ns fieldName value = .ok (insertPyJ ns fieldName value) := by
  rw [writeNoAlias, if_neg (by simp [List.contains]; exact hd)]
  rfl

theorem applyWriteValue_ok (ns : Json) (p : String) (fc : FieldSpec) (value : Json)
    (hdot : '.' ∉ (destinationName p fc).toList) :
    ∃ ns', applyWriteValue ns p fc value = .ok ns' := by
  cases hal : fc.«alias» with
  | none =>
      simp only [destinationName, hal] at hdot
      simp only [applyWriteValue, hal]
      exact ⟨_, writeNoAlias_ok ns p value hdot⟩
  | some a =>
      simp only [destinationName, hal] at hdot
      simp only [applyWriteValue, hal]
      by_cases hae : a.toList.isEmpty
      · simp only [hae, if_true] at hdot ⊢
        exact ⟨_, writeNoAlias_ok ns p value hdot⟩
      · simp only [hae, Bool.false_eq_true, if_false] at hdot ⊢
        rw [if_neg (by simp [List.contains]; exact hdot)]
        exact ⟨_, rfl⟩

theorem applyOneField_ok (source ns : Json) (p : String) (fc : FieldSpec)
    (hm : '-' ∉ p.toList) (hdot : '.' ∉ (destinationName p fc).toList) :
    ∃ ns', applyOneField source ns p fc = .ok ns' := by
  rw [applyOneField]
  cases hraw : get_nested_value source p with
  | error e => cases e; exact absurd hraw (get_nested_value_no_minus source p hm)
  | ok raw =>
      simp only [hraw, bind, Except.bind]
      cases raw with
      | null => exact ⟨ns, rfl⟩
      | bool b => exact applyWriteValue_ok ns p fc _ hdot
      | num m => exact applyWriteValue_ok ns p fc _ hdot
      | str t => exact applyWriteValue_ok ns p fc _ hdot
      | obj d => exact applyWriteValue_ok ns p fc _ hdot
      | arr xs =>
          cases hfmt : format_extracted_values (.arr xs) with
          | null =>
              simp only [hfmt]
              exact ⟨ns, rfl⟩
          | bool b => simp only [hfmt]; exact applyWriteValue_ok ns p fc _ hdot
          | num m => simp only [hfmt]; exact applyWriteValue_ok ns p fc _ hdot
          | str t => simp only [hfmt]; exact applyWriteValue_ok ns p fc _ hdot
          | arr ys => simp only [hfmt]; exact applyWriteValue_ok ns p fc _ hdot
          | obj d => simp only [hfmt]; exact applyWriteValue_ok ns p fc _ hdot

/-- C1 counterexample: `apply_field_aliases` raises on non-dict source
documents — already `apply_field_aliases(5, {})` hits a `TypeError` at
`'@timestamp' in source` (line 128) — and also raises for a well-typed
config whose dotted alias runs through a non-dict value:
`apply_field_aliases({"userId": "u1", "x": 1}, {"x": {"alias": "userId.y"}})`
raises a `TypeError` inside `set_nested_value`. -/
theorem c1_counterexample :
    apply_field_aliases (.num 5) [] = .error ()
    ∧ apply_field_aliases (.obj (jdict [("userId", .str "u1"), ("x", .num 1)]))
        [("x", { «alias» := some "userId.y" })] = .error () :=
  ⟨rfl, rfl⟩

/-- The configured-fields fold never raises when the paths have no `'-'`
and the destinations are dot-free. -/
theorem foldlM_applyOneField_ok (source : Json) :
    ∀ (cfg : List (String × FieldSpec)) (ns : Json),
      (∀ p fc, (p, fc) ∈ cfg → '-' ∉ p.toList) →
      (∀ p fc, (p, fc) ∈ cfg → '.' ∉ (destinationName p fc).toList) →
      ∃ out, cfg.foldlM (fun ns q => applyOneField source ns q.1 q.2) ns = .ok out
  | [], ns, _, _ => ⟨ns, rfl⟩
  | (p, fc) :: tl, ns, hm, hd => by
      obtain ⟨ns', hns'⟩ :=
        applyOneField_ok source ns p fc (hm p fc (by simp)) (hd p fc (by simp))
      rw [List.foldlM_cons]
      simp only [hns', bind, Except.bind]
      exact foldlM_applyOneField_ok source tl ns'
        (fun q qc hq => hm q qc (by simp [hq]))
        (fun q qc hq => hd q qc (by simp [hq]))

/-- C1 (amended): projection never raises provided the source document is a
dict, every configured path contains no `'-'` (the only raise point of path
evaluation is a negative array index below `-len`), and every destination
name (truthy alias, else field name) is dot-free (a dotted destination can
reach a non-dict value and raise in `set_nested_value`); fields whose paths
evaluate to Absent are skipped, never a crash. -/
theorem c1_amended_projection_no_raise (kvs : JDict)
    (cfg : List (String × FieldSpec))
    (hminus : ∀ p fc, (p, fc) ∈ cfg → '-' ∉ p.toList)
    (hdots : ∀ p fc, (p, fc) ∈ cfg → '.' ∉ (destinationName p fc).toList) :
    ∃ out, apply_field_aliases (.obj kvs) cfg = .ok out := by
  rw [apply_field_aliases]
  rw [foldlM_copyImportantField kvs importantFields .dnil]
  simp only [bind, Except.bind]
  exact foldlM_applyOneField_ok (.obj kvs) cfg _ hminus hdots

/-- C1 witness: the amended theorem at `{"userId": "u1", "a": {"b": 5}}`
with the config `{"a.b": {"alias": "ab"}}`. -/
theorem c1_amended_projection_no_raise_witness :
    ∃ out, apply_field_aliases
      (.obj (jdict [("userId", .str "u1"), ("a", .obj (jdict [("b", .num 5)]))]))
      [("a.b", { «alias» := some "ab" })] = .ok out :=
  c1_amended_projection_no_raise
    (jdict [("userId", .str "u1"), ("a", .obj (jdict [("b", .num 5)]))])
    [("a.b", { «alias» := some "ab" })]
    (by
      intro p fc hm
      simp only [List.mem_singleton, Prod.mk.injEq] at hm
      obtain ⟨rfl, rfl⟩ := hm
      decide)
    (by
      intro p fc hm
      simp only [List.mem_singleton, Prod.mk.injEq] at hm
      obtain ⟨rfl, rfl⟩ := hm
      decide)

/-! ### C4 -/

theorem copyWhitelist_lookup_notmem : ∀ (fields : List String) (kvs ns : JDict)
    (w : String), w ∉ fields →
    lookupD (copyWhitelist kvs fields ns) w = lookupD ns w
  | [], _, _, _, _ => rfl
  | f :: fs, kvs, ns, w, hw => by
      rw [copyWhitelist]
      have hfw : w ≠ f := fun h => hw (by simp [h])
      cases hlk : lookupD kvs f with
      | none => exact copyWhitelist_lookup_notmem fs kvs ns w (fun h => hw (by simp [h]))
      | some v =>
          rw [copyWhitelist_lookup_notmem fs kvs _ w (fun h => hw (by simp [h]))]
          exact lookupD_insertD_ne ns f v w hfw

theorem copyWhitelist_lookup : ∀ (fields : List String) (kvs ns : JDict)
    (w : String) (v : Json), w ∈ fields → fields.Nodup → lookupD kvs w = some v →
    lookupD (copyWhitelist kvs fields ns) w = some v
  | [], _, _, _, _, hw, _, _ => absurd hw (List.not_mem_nil _)
  | f :: fs, kvs, ns, w, v, hw, hnd, hlk => by
      rw [copyWhitelist]
      rcases List.mem_cons.mp hw with rfl | hw2
      · rw [hlk]
        rw [copyWhitelist_lookup_notmem fs kvs _ w (List.nodup_cons.mp hnd).1]
        exact lookupD_insertD_self ns w v
      · cases hlk2 : lookupD kvs f with
        | none => exact copyWhitelist_lookup fs kvs ns w v hw2 (List.Nodup.of_cons hnd) hlk
        | some u => exact copyWhitelist_lookup fs kvs _ w v hw2 (List.Nodup.of_cons hnd) hlk

theorem mem_keysD_copyWhitelist : ∀ (fields : List String) (kvs ns : JDict)
    (k : String), k ∈ keysD (copyWhitelist kvs fields ns) →
    k ∈ keysD ns ∨ (k ∈ fields ∧ (lookupD kvs k).isSome)
  | [], _, _, _, h => Or.inl h
  | f :: fs, kvs, ns, k, h => by
      rw [copyWhitelist] at h
      cases hlk : lookupD kvs f with
      | none =>
          rw [hlk] at h
          rcases mem_keysD_copyWhitelist fs kvs ns k h with h2 | h2
          · exact Or.inl h2
          · exact Or.inr ⟨by simp [h2.1], h2.2⟩
      | some v =>
          rw [hlk] at h
          rcases mem_keysD_copyWhitelist fs kvs _ k h with h2 | h2
          · rcases mem_keysD_insertD ns f v k h2 with rfl | h3
            · exact Or.inr ⟨by simp, by simp [hlk]⟩
            · exact Or.inl h3
          · exact Or.inr ⟨by simp [h2.1], h2.2⟩

theorem applyWriteValue_shape (ns : Json) (p : String) (fc : FieldSpec)
    (value : Json) (ns' : Json)
    (hdot : '.' ∉ (destinationName p fc).toList)
    (h : applyWriteValue ns p fc value = .ok ns') :
    ∃ v, ns' = insertPyJ ns (destinationName p fc) v := by
  cases hal : fc.«alias» with
  | none =>
      simp only [destinationName, hal] at hdot ⊢
      simp only [applyWriteValue, hal] at h
      rw [writeNoAlias_ok ns p value hdot] at h
      simp only [Except.ok.injEq] at h
      exact ⟨value, h.symm⟩
  | some a =>
      simp only [destinationName, hal] at hdot ⊢
      simp only [applyWriteValue, hal] at h
      by_cases hae : a.toList.isEmpty
      · simp only [hae, if_true] at hdot h ⊢
        rw [writeNoAlias_ok ns p value hdot] at h
        simp only [Except.ok.injEq] at h
        exact ⟨value, h.symm⟩
      · simp only [hae, Bool.false_eq_true, if_false] at hdot h ⊢
        rw [if_neg (by simp [List.contains]; exact hdot)] at h
        simp only [pure, Except.pure, Except.ok.injEq] at h
        exact ⟨_, h.symm⟩

theorem applyOneField_shape (source ns : Json) (p : String) (fc : FieldSpec)
    (ns' : Json) (hdot : '.' ∉ (destinationName p fc).toList)
    (h : applyOneField source ns p fc = .ok ns') :
    ns' = ns ∨ (∃ v raw, get_nested_value source p = .ok raw ∧ raw ≠ .null
      ∧ ns' = insertPyJ ns (destinationName p fc) v) := by
  rw [applyOneField] at h
  cases hraw : get_nested_value source p with
  | error e =>
      rw [hraw] at h
      simp [bind, Except.bind] at h
  | ok raw =>
      rw [hraw] at h
      simp only [bind, Except.bind] at h
      cases raw with
      | null =>
          simp only [pure, Except.pure, Except.ok.injEq] at h
          exact Or.inl h.symm
      | bool b =>
          obtain ⟨v, hv⟩ := applyWriteValue_shape ns p fc _ ns' hdot h
          exact Or.inr ⟨v, .bool b, rfl, fun hc => Json.noConfusion hc, hv⟩
      | num m =>
          obtain ⟨v, hv⟩ := applyWriteValue_shape ns p fc _ ns' hdot h
          exact Or.inr ⟨v, .num m, rfl, fun hc => Json.noConfusion hc, hv⟩
      | str t =>
          obtain ⟨v, hv⟩ := applyWriteValue_shape ns p fc _ ns' hdot h
          exact Or.inr ⟨v, .str t, rfl, fun hc => Json.noConfusion hc, hv⟩
      | obj d =>
          obtain ⟨v, hv⟩ := applyWriteValue_shape ns p fc _ ns' hdot h
          exact Or.inr ⟨v, .obj d, rfl, fun hc => Json.noConfusion hc, hv⟩
      | arr xs =>
          split at h
          · simp only [pure, Except.pure, Except.ok.injEq] at h
            exact Or.inl h.symm
          · split at h
            · simp only [pure, Except.pure, Except.ok.injEq] at h
              exact Or.inl h.symm
            · obtain ⟨v, hv⟩ := applyWriteValue_shape ns p fc _ ns' hdot h
              exact Or.inr ⟨v, .arr xs, rfl, fun hc => Json.noConfusion hc, hv⟩

/-- The configured-fields fold keeps the result a dict, preserves keys no
destination names, and only adds keys that are destinations of fields whose
paths evaluated to a non-`None` value. -/
theorem foldlM_applyOneField_facts (source : Json) :
    ∀ (cfg : List (String × FieldSpec)) (ns : JDict) (out : Json),
      (∀ p fc, (p, fc) ∈ cfg → '.' ∉ (destinationName p fc).toList) →
      cfg.foldlM (fun ns q => applyOneField source ns q.1 q.2) (Json.obj ns) = .ok out →
      ∃ od : JDict, out = .obj od ∧
        (∀ w : String, (∀ p fc, (p, fc) ∈ cfg → destinationName p fc ≠ w) →
          lookupD od w = lookupD ns w) ∧
        (∀ k : String, k ∈ keysD od → k ∈ keysD ns ∨
          ∃ p fc, (p, fc) ∈ cfg ∧ destinationName p fc = k ∧
            ∃ raw, get_nested_value source p = .ok raw ∧ raw ≠ .null)
  | [], ns, out, _, h => by
      simp only [List.foldlM_nil, pure, Except.pure, Except.ok.injEq] at h
      exact ⟨ns, h.symm, fun w _ => rfl, fun k hk => Or.inl hk⟩
  | (p, fc) :: tl, ns, out, hdots, h => by
      rw [List.foldlM_cons] at h
      cases h1 : applyOneField source (.obj ns) p fc with
      | error e => rw [h1] at h; simp [bind, Except.bind] at h
      | ok ns1 =>
          rw [h1] at h
          simp only [bind, Except.bind] at h
          rcases applyOneField_shape source (.obj ns) p fc ns1
              (hdots p fc (by simp)) h1 with rfl | ⟨v, raw, hraw, hrnn, rfl⟩
          · obtain ⟨od, rfl, hpres, hprov⟩ :=
              foldlM_applyOneField_facts source tl ns out
                (fun q qc hq => hdots q qc (by simp [hq])) h
            refine ⟨od, rfl, ?_, ?_⟩
            · exact fun w hw => hpres w (fun q qc hq => hw q qc (by simp [hq]))
            · intro k hk
              rcases hprov k hk with hk2 | ⟨q, qc, hq, hrest⟩
              · exact Or.inl hk2
              · exact Or.inr ⟨q, qc, by simp [hq], hrest⟩
          · rw [show insertPyJ (Json.obj ns) (destinationName p fc) v
                = Json.obj (insertD ns (destinationName p fc) v) from rfl] at h
            obtain ⟨od, rfl, hpres, hprov⟩ :=
              foldlM_applyOneField_facts source tl (insertD ns (destinationName p fc) v) out
                (fun q qc hq => hdots q qc (by simp [hq])) h
            refine ⟨od, rfl, ?_, ?_⟩
            · intro w hw
              rw [hpres w (fun q qc hq => hw q qc (by simp [hq]))]
              exact lookupD_insertD_ne ns (destinationName p fc) v w
                (fun hc => hw p fc (by simp) (hc ▸ rfl))
            · intro k hk
              rcases hprov k hk with hk2 | ⟨q, qc, hq, hrest⟩
              · rcases mem_keysD_insertD ns (destinationName p fc) v k hk2 with rfl | hk3
                · exact Or.inr ⟨p, fc, by simp, rfl, raw, hraw, hrnn⟩
                · exact Or.inl hk3
              · exact Or.inr ⟨q, qc, by simp [hq], hrest⟩

/-- C4 counterexample: a configured field whose alias names a whitelist
field overwrites it — projecting `{"userId": "u1", "x": 2}` under
`{"x": {"alias": "userId"}}` yields `{"userId": 2}`, so the whitelist field
`userId`, present top-level in the source, does not keep its identical
value `"u1"` in the output. -/
theorem c4_counterexample :
    apply_field_aliases (.obj (jdict [("userId", .str "u1"), ("x", .num 2)]))
      [("x", { «alias» := some "userId" })]
      = .ok (.obj (jdict [("userId", .num 2)]))
    ∧ Json.num 2 ≠ Json.str "u1" :=
  ⟨rfl, fun hc => Json.noConfusion hc⟩

/-- C4 (amended): the spec's concrete example holds verbatim, and for every
dict source and config whose destination names are dot-free, the output is a
dict in which (i) every whitelist field present top-level in the source and
not named as the destination of any configured field appears under the same
name with the identical value, and (ii) every key either is a whitelist
field present in the source or is the destination of a configured field
whose path evaluated to a non-`None` value — so a path that is Absent in the
source contributes no key. -/
theorem c4_amended_whitelist_preservation :
    (apply_field_aliases
        (.obj (jdict [("userId", .str "u1"), ("a", .obj (jdict [("b", .num 5)]))]))
        [("a.b", { «alias» := some "ab" })]
      = .ok (.obj (jdict [("userId", .str "u1"), ("ab", .num 5)])))
    ∧ ∀ (kvs : JDict) (cfg : List (String × FieldSpec)) (out : Json),
        (∀ p fc, (p, fc) ∈ cfg → '.' ∉ (destinationName p fc).toList) →
        apply_field_aliases (.obj kvs) cfg = .ok out →
        ∃ od : JDict, out = .obj od ∧
          (∀ w v, w ∈ importantFields →
            (∀ p fc, (p, fc) ∈ cfg → destinationName p fc ≠ w) →
            lookupD kvs w = some v → lookupD od w = some v) ∧
          (∀ k, k ∈ keysD od →
            (k ∈ importantFields ∧ (lookupD kvs k).isSome) ∨
            ∃ p fc, (p, fc) ∈ cfg ∧ destinationName p fc = k ∧
              ∃ raw, get_nested_value (.obj kvs) p = .ok raw ∧ raw ≠ .null) := by
  constructor
  · rfl
  · intro kvs cfg out hdots hok
    rw [apply_field_aliases] at hok
    rw [foldlM_copyImportantField kvs importantFields .dnil] at hok
    simp only [bind, Except.bind] at hok
    obtain ⟨od, rfl, hpres, hprov⟩ :=
      foldlM_applyOneField_facts (.obj kvs) cfg _ out hdots hok
    refine ⟨od, rfl, ?_, ?_⟩
    · intro w v hw hnd hlk
      rw [hpres w hnd]
      exact copyWhitelist_lookup importantFields kvs .dnil w v hw (by decide) hlk
    · intro k hk
      rcases hprov k hk with hk2 | hins
      · rcases mem_keysD_copyWhitelist importantFields kvs .dnil k hk2 with h3 | h3
        · exact absurd h3 (List.not_mem_nil k)
        · exact Or.inl h3
      · exact Or.inr hins

/-- C4 witness: the amended theorem's general part applied to the spec's own
example source and config. -/
theorem c4_amended_whitelist_preservation_witness :
    ∃ od : JDict,
      Json.obj (jdict [("userId", Json.str "u1"), ("ab", Json.num 5)]) = .obj od
      ∧ (∀ w v, w ∈ importantFields →
          (∀ p fc, (p, fc) ∈ [("a.b", ({ «alias» := some "ab" } : FieldSpec))] →
            destinationName p fc ≠ w) →
          lookupD (jdict [("userId", Json.str "u1"),
            ("a", Json.obj (jdict [("b", Json.num 5)]))]) w = some v →
          lookupD od w = some v)
      ∧ (∀ k, k ∈ keysD od →
          (k ∈ importantFields ∧ (lookupD (jdict [("userId", Json.str "u1"),
            ("a", Json.obj (jdict [("b", Json.num 5)]))]) k).isSome) ∨
          ∃ p fc, (p, fc) ∈ [("a.b", ({ «alias» := some "ab" } : FieldSpec))] ∧
            destinationName p fc = k ∧
            ∃ raw, get_nested_value (.obj (jdict [("userId", Json.str "u1"),
              ("a", Json.obj (jdict [("b", Json.num 5)]))])) p = .ok raw ∧
              raw ≠ .null) :=
  c4_amended_whitelist_preservation.2
    (jdict [("userId", .str "u1"), ("a", .obj (jdict [("b", .num 5)]))])
    [("a.b", { «alias» := some "ab" })]
    (.obj (jdict [("userId", .str "u1"), ("ab", .num 5)]))
    (by
      intro p fc hm
      simp only [List.mem_singleton, Prod.mk.injEq] at hm
      obtain ⟨rfl, rfl⟩ := hm
      decide)
    rfl

/-! ### C3: heap lemmas -/

theorem lookupN_append {α : Type} : ∀ (l1 l2 : List (Nat × α)) (a : Nat),
    lookupN (l1 ++ l2) a =
      match lookupN l1 a with
      | some v => some v
      | none => lookupN l2 a
  | [], l2, a => rfl
  | (k, v) :: rest, l2, a => by
      by_cases hk : k = a
      · simp [lookupN, hk]
      · simp only [List.cons_append, lookupN, hk, if_neg]
        exact lookupN_append rest l2 a

theorem lookupN_mem {α : Type} : ∀ (l : List (Nat × α)) (a : Nat) (v : α),
    lookupN l a = some v → (a, v) ∈ l
  | [], a, v, h => by simp [lookupN] at h
  | (k, w) :: rest, a, v, h => by
      by_cases hk : k = a
      · subst hk
        simp [lookupN] at h
        subst h
        exact List.mem_cons_self _ _
      · simp only [lookupN, hk, if_neg] at h
        exact List.mem_cons_of_mem _ (lookupN_mem rest a v h)

/-- `allocH` leaves every previously allocated address readable as before. -/
theorem lookupH_allocH (h : Heap) (o : HObj) (a : Nat) (ha : a ≠ h.next) :
    lookupH (allocH h o).2 a = lookupH h a := by
  show lookupN (h.cells ++ [(h.next, o)]) a = lookupN h.cells a
  rw [lookupN_append]
  cases hl : lookupN h.cells a with
  | some v => rfl
  | none =>
      show lookupN [(h.next, o)] a = none
      rw [lookupN, if_neg (fun hc => ha hc.symm)]
      rfl

theorem allocH_next (h : Heap) (o : HObj) : (allocH h o).2.next = h.next + 1 := rfl

/-- `updateH` leaves every other address readable as before. -/
theorem lookupH_updateH_ne (h : Heap) (a0 : Nat) (o : HObj) (a : Nat) (ha : a ≠ a0) :
    lookupH (updateH h a0 o) a = lookupH h a := by
  show lookupN (h.cells.map fun p => if p.1 = a0 then (a0, o) else p) a = lookupN h.cells a
  induction h.cells with
  | nil => rfl
  | cons p rest ih =>
      rcases p with ⟨k, w⟩
      by_cases hp : k = a0
      · have h1 : (if (k, w).1 = a0 then (a0, o) else (k, w)) = (a0, o) := by simp [hp]
        rw [List.map_cons, h1, lookupN, lookupN,
            if_neg (fun hc : a0 = a => ha hc.symm),
            if_neg (fun hc : k = a => ha (hc ▸ hp))]
        exact ih
      · have h1 : (if (k, w).1 = a0 then (a0, o) else (k, w)) = (k, w) := by simp [hp]
        rw [List.map_cons, h1, lookupN, lookupN]
        by_cases hka : k = a
        · rw [if_pos hka, if_pos hka]
        · rw [if_neg hka, if_neg hka]
          exact ih

theorem updateH_next (h : Heap) (a0 : Nat) (o : HObj) : (updateH h a0 o).next = h.next := rfl

theorem dictWriteH_next (h : Heap) (a0 : Nat) (k : String) (v : HVal) :
    (dictWriteH h a0 k v).next = h.next := by
  rw [dictWriteH]
  cases lookupH h a0 with
  | none => rfl
  | some o => cases o with
    | dict kvs => rfl
    | list vs => rfl

theorem lookupH_dictWriteH_ne (h : Heap) (a0 : Nat) (k : String) (v : HVal)
    (a : Nat) (ha : a ≠ a0) :
    lookupH (dictWriteH h a0 k v) a = lookupH h a := by
  rw [dictWriteH]
  cases lookupH h a0 with
  | none => rfl
  | some o => cases o with
    | dict kvs => exact lookupH_updateH_ne h a0 _ a ha
    | list vs => rfl

/-- `h'` extends `h`: no previously allocated cell changed, addresses only
grew.  All the read-only phases of the code produce extensions. -/
def heapExt (h h' : Heap) : Prop :=
  h.next ≤ h'.next ∧ ∀ a, a < h.next → lookupH h' a = lookupH h a

theorem heapExt_refl (h : Heap) : heapExt h h :=
  ⟨Nat.le_refl _, fun _ _ => rfl⟩

theorem heapExt_trans {h1 h2 h3 : Heap} (a : heapExt h1 h2) (b : heapExt h2 h3) :
    heapExt h1 h3 :=
  ⟨Nat.le_trans a.1 b.1,
   fun x hx => by rw [b.2 x (Nat.lt_of_lt_of_le hx a.1), a.2 x hx]⟩

theorem heapExt_alloc (h : Heap) (o : HObj) : heapExt h (allocH h o).2 :=
  ⟨Nat.le_succ _, fun a ha => lookupH_allocH h o a (Nat.ne_of_lt ha)⟩

theorem heapExt_of_ok {w v : HVal} {h h' : Heap}
    (hh : (Except.ok (w, h) : Except Unit (HVal × Heap)) = .ok (v, h')) :
    heapExt h h' := by
  simp only [Except.ok.injEq, Prod.mk.injEq] at hh
  rw [← hh.2]
  exact heapExt_refl h

/-- The flatten loop of the heap traversal only allocates. -/
theorem travHFlatAux_extends
    (rec : Heap → HVal → List Char → Except Unit (HVal × Heap))
    (hrec : ∀ (h : Heap) (v : HVal) (q : List Char) (w : HVal) (h' : Heap),
      rec h v q = .ok (w, h') → heapExt h h')
    (restPath : List Char) :
    ∀ (its : List HVal) (acc : List HVal) (h : Heap) (res : List HVal) (h' : Heap),
      travHFlatAux rec restPath acc its h = .ok (res, h') → heapExt h h'
  | [], acc, h, res, h', hh => by
      rw [travHFlatAux] at hh
      simp only [Except.ok.injEq, Prod.mk.injEq] at hh
      rw [← hh.2]
      exact heapExt_refl h
  | it :: its, acc, h, res, h', hh => by
      rw [travHFlatAux] at hh
      simp only [bind, Except.bind] at hh
      by_cases hre : restPath.isEmpty
      · simp only [hre, if_true] at hh
        exact travHFlatAux_extends rec hrec restPath its _ h res h' hh
      · simp only [hre, Bool.false_eq_true, if_false] at hh
        cases hr0 : rec h it restPath with
        | error e => rw [hr0] at hh; exact Except.noConfusion hh
        | ok p =>
            rcases p with ⟨value, h1⟩
            rw [hr0] at hh
            exact heapExt_trans (hrec h it restPath value h1 hr0)
              (travHFlatAux_extends rec hrec restPath its _ h1 res h' hh)

/-- One heap-traversal step only allocates (never mutates a cell). -/
theorem travHStep_extends
    (rec : Heap → HVal → List Char → Except Unit (HVal × Heap))
    (hrec : ∀ (h : Heap) (v : HVal) (q : List Char) (w : HVal) (h' : Heap),
      rec h v q = .ok (w, h') → heapExt h h')
    (h : Heap) (obj : HVal) (path : List Char) (v : HVal) (h' : Heap)
    (hh : travHStep rec h obj path = .ok (v, h')) : heapExt h h' := by
  rw [travHStep] at hh
  by_cases hpe : path.isEmpty
  · simp only [hpe, if_true] at hh
    exact heapExt_of_ok hh
  · simp only [hpe, Bool.false_eq_true, if_false] at hh
    by_cases heb : endsBrackets (splitFirstDot path).1
    · simp only [heb, if_true] at hh
      cases obj with
      | prim p => exact heapExt_of_ok hh
      | ref a =>
          cases hlk : lookupH h a with
          | none => simp only [hlk] at hh; exact heapExt_of_ok hh
          | some o =>
              cases o with
              | list vs => simp only [hlk] at hh; exact heapExt_of_ok hh
              | dict kvs =>
                  simp only [hlk] at hh
                  cases hlk2 : lookupA kvs
                      (String.mk ((splitFirstDot path).1.dropLast.dropLast)) with
                  | none => simp only [hlk2] at hh; exact heapExt_of_ok hh
                  | some w =>
                      cases w with
                      | prim pp => simp only [hlk2] at hh; exact heapExt_of_ok hh
                      | ref a' =>
                          simp only [hlk2] at hh
                          cases hlk3 : lookupH h a' with
                          | none => simp only [hlk3] at hh; exact heapExt_of_ok hh
                          | some o2 =>
                              cases o2 with
                              | dict d2 =>
                                  simp only [hlk3] at hh
                                  exact heapExt_of_ok hh
                              | list items =>
                                  simp only [hlk3] at hh
                                  simp only [bind, Except.bind] at hh
                                  cases hfa : travHFlatAux rec
                                      ((splitFirstDot path).2.getD []) [] items h with
                                  | error e =>
                                      rw [hfa] at hh
                                      exact Except.noConfusion hh
                                  | ok rh =>
                                      rcases rh with ⟨results, h1⟩
                                      have hext1 : heapExt h h1 :=
                                        travHFlatAux_extends rec hrec _ items [] h
                                          results h1 hfa
                                      rw [hfa] at hh
                                      by_cases hri : results.isEmpty
                                      · simp only [hri, if_true] at hh
                                        exact heapExt_trans hext1 (heapExt_of_ok hh)
                                      · simp only [hri, Bool.false_eq_true, if_false] at hh
                                        exact heapExt_trans hext1
                                          (heapExt_trans (heapExt_alloc h1 (.list results))
                                            (heapExt_of_ok hh))
    · simp only [heb, Bool.false_eq_true, if_false] at hh
      by_cases hbl : ((splitFirstDot path).1.contains '['
          && decide ((splitFirstDot path).1.getLast? = some ']')) = true
      · simp only [hbl, if_true] at hh
        cases hpy : pyInt? ((splitFirstLBrack (splitFirstDot path).1).2.dropLast) with
        | none => simp only [hpy] at hh; exact heapExt_of_ok hh
        | some index =>
            simp only [hpy] at hh
            cases obj with
            | prim p => exact heapExt_of_ok hh
            | ref a =>
                cases hlk : lookupH h a with
                | none => simp only [hlk] at hh; exact heapExt_of_ok hh
                | some o =>
                    cases o with
                    | list vs => simp only [hlk] at hh; exact heapExt_of_ok hh
                    | dict kvs =>
                        simp only [hlk] at hh
                        cases hlk2 : lookupA kvs
                            (String.mk (splitFirstLBrack (splitFirstDot path).1).1) with
                        | none => simp only [hlk2] at hh; exact heapExt_of_ok hh
                        | some w =>
                            cases w with
                            | prim pp => simp only [hlk2] at hh; exact heapExt_of_ok hh
                            | ref a' =>
                                simp only [hlk2] at hh
                                cases hlk3 : lookupH h a' with
                                | none => simp only [hlk3] at hh; exact heapExt_of_ok hh
                                | some o2 =>
                                    cases o2 with
                                    | dict d2 =>
                                        simp only [hlk3] at hh
                                        exact heapExt_of_ok hh
                                    | list items =>
                                        simp only [hlk3] at hh
                                        by_cases hle : ((items.length : Int)) ≤ index
                                        · simp only [hle, if_true] at hh
                                          exact heapExt_of_ok hh
                                        · simp only [hle, if_false] at hh
                                          by_cases hge : (0 : Int) ≤ index
                                          · simp only [hge, if_true] at hh
                                            by_cases hri : ((splitFirstDot path).2.getD []).isEmpty
                                            · simp only [hri, if_true] at hh
                                              exact heapExt_of_ok hh
                                            · simp only [hri, Bool.false_eq_true, if_false] at hh
                                              exact hrec h _ _ v h' hh
                                          · simp only [hge, if_false] at hh
                                            by_cases hgn : (0 : Int) ≤ (items.length : Int) + index
                                            · simp only [hgn, if_true] at hh
                                              by_cases hri : ((splitFirstDot path).2.getD []).isEmpty
                                              · simp only [hri, if_true] at hh
                                                exact heapExt_of_ok hh
                                              · simp only [hri, Bool.false_eq_true, if_false] at hh
                                                exact hrec h _ _ v h' hh
                                            · simp only [hgn, if_false] at hh
                                              exact Except.noConfusion hh
      · simp only [hbl, Bool.false_eq_true, if_false] at hh
        cases obj with
        | prim p => exact heapExt_of_ok hh
        | ref a =>
            cases hlk : lookupH h a with
            | none => simp only [hlk] at hh; exact heapExt_of_ok hh
            | some o =>
                cases o with
                | list vs => simp only [hlk] at hh; exact heapExt_of_ok hh
                | dict kvs =>
                    simp only [hlk] at hh
                    cases hlk2 : lookupA kvs (String.mk (splitFirstDot path).1) with
                    | none => simp only [hlk2] at hh; exact heapExt_of_ok hh
                    | some w =>
                        simp only [hlk2] at hh
                        by_cases hri : ((splitFirstDot path).2.getD []).isEmpty
                        · simp only [hri, if_true] at hh
                          exact heapExt_of_ok hh
                        · simp only [hri, Bool.false_eq_true, if_false] at hh
                          exact hrec h _ _ v h' hh

/-- The fuelled heap traversal only allocates. -/
theorem travH_extends : ∀ (n : Nat) (h : Heap) (obj : HVal) (path : List Char)
    (v : HVal) (h' : Heap), travH n h obj path = .ok (v, h') → heapExt h h'
  | 0, _, _, _, _, _, hh => Except.noConfusion hh
  | n + 1, h, obj, path, v, h', hh =>
      travHStep_extends (travH n)
        (fun h2 v2 q w h3 hq => travH_extends n h2 v2 q w h3 hq)
        h obj path v h' hh

/-- `h'` differs from `h` only at the address `a0` (the `new_source` cell)
and at freshly allocated addresses. -/
def heapMod (a0 : Nat) (h h' : Heap) : Prop :=
  h.next ≤ h'.next ∧ ∀ a, a < h.next → a ≠ a0 → lookupH h' a = lookupH h a

theorem heapMod_of_ext {a0 : Nat} {h h' : Heap} (he : heapExt h h') : heapMod a0 h h' :=
  ⟨he.1, fun a ha _ => he.2 a ha⟩

theorem heapMod_refl (a0 : Nat) (h : Heap) : heapMod a0 h h :=
  ⟨Nat.le_refl _, fun _ _ _ => rfl⟩

theorem heapMod_trans {a0 : Nat} {h1 h2 h3 : Heap}
    (a : heapMod a0 h1 h2) (b : heapMod a0 h2 h3) : heapMod a0 h1 h3 :=
  ⟨Nat.le_trans a.1 b.1,
   fun x hx hne => by rw [b.2 x (Nat.lt_of_lt_of_le hx a.1) hne, a.2 x hx hne]⟩

theorem heapMod_dictWriteH (a0 : Nat) (h : Heap) (k : String) (v : HVal) :
    heapMod a0 h (dictWriteH h a0 k v) :=
  ⟨Nat.le_of_eq (dictWriteH_next h a0 k v).symm,
   fun a _ hne => lookupH_dictWriteH_ne h a0 k v a hne⟩

theorem heapMod_of_ok {h : Heap} {h' : Heap} {a0 : Nat}
    (hh : (Except.ok h : Except Unit Heap) = .ok h') : heapMod a0 h h' := by
  simp only [Except.ok.injEq] at hh
  rw [← hh]
  exact heapMod_refl a0 h

/-- The dot-free no-alias write touches only the `new_source` cell. -/
theorem writeNoAliasH_mod (h : Heap) (a0 : Nat) (fieldName : String) (value : HVal)
    (h' : Heap) (hd : '.' ∉ fieldName.toList)
    (hh : writeNoAliasH h a0 fieldName value = .ok h') : heapMod a0 h h' := by
  rw [writeNoAliasH, if_neg (by simp [List.contains]; exact hd)] at hh
  simp only [pure, Except.pure, Except.ok.injEq] at hh
  rw [← hh]
  exact heapMod_dictWriteH a0 h fieldName value

/-- The dot-free write phase touches only the `new_source` cell. -/
theorem applyWriteValueH_mod (h : Heap) (a0 : Nat) (p : String) (fc : FieldSpec)
    (value : HVal) (h' : Heap) (hdot : '.' ∉ (destinationName p fc).toList)
    (hh : applyWriteValueH h a0 p fc value = .ok h') : heapMod a0 h h' := by
  cases hal : fc.«alias» with
  | none =>
      simp only [destinationName, hal] at hdot
      simp only [applyWriteValueH, hal] at hh
      exact writeNoAliasH_mod h a0 p value h' hdot hh
  | some a =>
      simp only [destinationName, hal] at hdot
      simp only [applyWriteValueH, hal] at hh
      by_cases hae : a.toList.isEmpty
      · simp only [hae, if_true] at hdot hh
        exact writeNoAliasH_mod h a0 p value h' hdot hh
      · simp only [hae, Bool.false_eq_true, if_false] at hdot hh
        rw [if_neg (by simp [List.contains]; exact hdot)] at hh
        simp only [pure, Except.pure, Except.ok.injEq] at hh
        rw [← hh]
        exact heapMod_dictWriteH a0 h a _

/-- One iteration of the configured-fields loop over the heap, with a
dot-free destination, touches only the `new_source` cell (plus fresh
allocations). -/
theorem applyOneFieldH_mod (h : Heap) (src : HVal) (a0 : Nat) (p : String)
    (fc : FieldSpec) (h' : Heap) (hdot : '.' ∉ (destinationName p fc).toList)
    (hh : applyOneFieldH h src a0 p fc = .ok h') : heapMod a0 h h' := by
  rw [applyOneFieldH] at hh
  cases htr : travH (p.toList.length + 1) h src p.toList with
  | error e => rw [htr] at hh; exact Except.noConfusion hh
  | ok rh =>
      rcases rh with ⟨raw, h2⟩
      have hext : heapExt h h2 := travH_extends _ h src _ raw h2 htr
      rw [htr] at hh
      simp only [bind, Except.bind] at hh
      cases raw with
      | prim pr =>
          cases pr with
          | null =>
              simp only [pure, Except.pure, Except.ok.injEq] at hh
              rw [← hh]
              exact heapMod_of_ext hext
          | bool b =>
              exact heapMod_trans (heapMod_of_ext hext)
                (applyWriteValueH_mod h2 a0 p fc _ h' hdot hh)
          | num m =>
              exact heapMod_trans (heapMod_of_ext hext)
                (applyWriteValueH_mod h2 a0 p fc _ h' hdot hh)
          | str s =>
              exact heapMod_trans (heapMod_of_ext hext)
                (applyWriteValueH_mod h2 a0 p fc _ h' hdot hh)
      | ref a =>
          cases hlk : lookupH h2 a with
          | none =>
              simp only [hlk] at hh
              exact heapMod_trans (heapMod_of_ext hext)
                (applyWriteValueH_mod h2 a0 p fc _ h' hdot hh)
          | some o =>
              cases o with
              | dict kvs =>
                  simp only [hlk] at hh
                  exact heapMod_trans (heapMod_of_ext hext)
                    (applyWriteValueH_mod h2 a0 p fc _ h' hdot hh)
              | list vs =>
                  simp only [hlk, reduceIte] at hh
                  cases hf : formatH h2 (.ref a) with
                  | ref af =>
                      rw [hf] at hh
                      exact heapMod_trans (heapMod_of_ext hext)
                        (applyWriteValueH_mod h2 a0 p fc _ h' hdot hh)
                  | prim pr =>
                      rw [hf] at hh
                      cases pr with
                      | null =>
                          simp only [pure, Except.pure, Except.ok.injEq] at hh
                          rw [← hh]
                          exact heapMod_of_ext hext
                      | bool b =>
                          exact heapMod_trans (heapMod_of_ext hext)
                            (applyWriteValueH_mod h2 a0 p fc _ h' hdot hh)
                      | num m =>
                          exact heapMod_trans (heapMod_of_ext hext)
                            (applyWriteValueH_mod h2 a0 p fc _ h' hdot hh)
                      | str s =>
                          exact heapMod_trans (heapMod_of_ext hext)
                            (applyWriteValueH_mod h2 a0 p fc _ h' hdot hh)

/-- One iteration of the whitelist-copy loop over the heap touches only the
`new_source` cell. -/
theorem copyImportantFieldH_mod (src : HVal) (a0 : Nat) (h : Heap) (f : String)
    (h' : Heap) (hh : copyImportantFieldH src a0 h f = .ok h') : heapMod a0 h h' := by
  rw [copyImportantFieldH] at hh
  cases hc0 : pyContainsStrH h f src with
  | error e => rw [hc0] at hh; exact Except.noConfusion hh
  | ok c =>
      rw [hc0] at hh
      simp only [bind, Except.bind] at hh
      cases c with
      | false =>
          simp only [Bool.false_eq_true, if_false, pure, Except.pure, Except.ok.injEq] at hh
          rw [← hh]
          exact heapMod_refl a0 h
      | true =>
          simp only [reduceIte] at hh
          cases hs : pySubscriptH h src f with
          | error e => rw [hs] at hh; exact Except.noConfusion hh
          | ok w =>
              rw [hs] at hh
              simp only [pure, Except.pure, Except.ok.injEq] at hh
              rw [← hh]
              exact heapMod_dictWriteH a0 h f w

theorem foldlM_copyImportantFieldH_mod (src : HVal) (a0 : Nat) :
    ∀ (fields : List String) (h h' : Heap),
      fields.foldlM (copyImportantFieldH src a0) h = .ok h' → heapMod a0 h h'
  | [], h, h', hh => by
      simp only [List.foldlM_nil, pure, Except.pure, Except.ok.injEq] at hh
      rw [← hh]
      exact heapMod_refl a0 h
  | f :: fs, h, h', hh => by
      rw [List.foldlM_cons] at hh
      cases h1 : copyImportantFieldH src a0 h f with
      | error e => rw [h1] at hh; simp [bind, Except.bind] at hh
      | ok h2 =>
          rw [h1] at hh
          simp only [bind, Except.bind] at hh
          exact heapMod_trans (copyImportantFieldH_mod src a0 h f h2 h1)
            (foldlM_copyImportantFieldH_mod src a0 fs h2 h' hh)

theorem foldlM_applyOneFieldH_mod (src : HVal) (a0 : Nat) :
    ∀ (cfg : List (String × FieldSpec)) (h h' : Heap),
      (∀ p fc, (p, fc) ∈ cfg → '.' ∉ (destinationName p fc).toList) →
      cfg.foldlM (fun h q => applyOneFieldH h src a0 q.1 q.2) h = .ok h' →
      heapMod a0 h h'
  | [], h, h', _, hh => by
      simp only [List.foldlM_nil, pure, Except.pure, Except.ok.injEq] at hh
      rw [← hh]
      exact heapMod_refl a0 h
  | (p, fc) :: tl, h, h', hdots, hh => by
      rw [List.foldlM_cons] at hh
      cases h1 : applyOneFieldH h src a0 p fc with
      | error e => rw [h1] at hh; simp [bind, Except.bind] at hh
      | ok h2 =>
          rw [h1] at hh
          simp only [bind, Except.bind] at hh
          exact heapMod_trans
            (applyOneFieldH_mod h src a0 p fc h2 (hdots p fc (by simp)) h1)
            (foldlM_applyOneFieldH_mod src a0 tl h2 h'
              (fun q qc hq => hdots q qc (by simp [hq])) hh)

/-- In a well-formed heap every stored cell keeps its references below
`next`. -/
theorem wfHeapB_below (h : Heap) (hwf : wfHeapB h = true) :
    ∀ (a : Nat) (o : HObj), lookupH h a = some o → objBelow h.next o = true := by
  intro a o hlk
  rw [wfHeapB, Bool.and_eq_true] at hwf
  have hmem := lookupN_mem h.cells a o hlk
  have h1 := List.all_eq_true.mp hwf.1 _ hmem
  rw [Bool.and_eq_true] at h1
  exact h1.2

/-- Read-back agreement: two heaps that agree on every address below `n`,
where the first keeps all its references below `n`, read back every value
whose references lie below `n` identically. -/
theorem readJsonH_agree (n : Nat) (h0 h1 : Heap)
    (hpres : ∀ a, a < n → lookupH h1 a = lookupH h0 a)
    (hbelow : ∀ (a : Nat) (o : HObj), a < n → lookupH h0 a = some o →
      objBelow n o = true) :
    ∀ (fuel : Nat) (v : HVal), valBelow n v = true →
      readJsonH fuel h1 v = readJsonH fuel h0 v
  | 0, _, _ => rfl
  | fuel + 1, v, hv => by
      cases v with
      | prim p => cases p <;> rfl
      | ref a =>
          have ha : a < n := by simpa [valBelow] using hv
          show readStep (readJsonH fuel h1) h1 (.ref a)
            = readStep (readJsonH fuel h0) h0 (.ref a)
          rw [readStep, readStep, hpres a ha]
          cases hlk : lookupH h0 a with
          | none => rfl
          | some o =>
              cases o with
              | list vs =>
                  have hall : vs.all (valBelow n) = true := by
                    have hb := hbelow a _ ha hlk
                    simpa [objBelow] using hb
                  have key : ∀ (ws : List HVal), ws.all (valBelow n) = true →
                      ws.mapM (readJsonH fuel h1) = ws.mapM (readJsonH fuel h0) := by
                    intro ws
                    induction ws with
                    | nil => intro _; rfl
                    | cons x xs ih =>
                        intro hws
                        simp only [List.all_cons, Bool.and_eq_true] at hws
                        rw [List.mapM_cons, List.mapM_cons,
                            readJsonH_agree n h0 h1 hpres hbelow fuel x hws.1,
                            ih hws.2]
                  show Option.map (fun l => Json.arr (jlist l)) (vs.mapM (readJsonH fuel h1))
                    = Option.map (fun l => Json.arr (jlist l)) (vs.mapM (readJsonH fuel h0))
                  rw [key vs hall]
              | dict kvs =>
                  have hall : kvs.all (fun p => valBelow n p.2) = true := by
                    have hb := hbelow a _ ha hlk
                    simpa [objBelow] using hb
                  have key : ∀ (ws : List (String × HVal)),
                      ws.all (fun p => valBelow n p.2) = true →
                      ws.mapM (fun p => (readJsonH fuel h1 p.2).map fun j => (p.1, j))
                        = ws.mapM (fun p => (readJsonH fuel h0 p.2).map fun j => (p.1, j)) := by
                    intro ws
                    induction ws with
                    | nil => intro _; rfl
                    | cons x xs ih =>
                        intro hws
                        simp only [List.all_cons, Bool.and_eq_true] at hws
                        rw [List.mapM_cons, List.mapM_cons,
                            readJsonH_agree n h0 h1 hpres hbelow fuel x.2 hws.1,
                            ih hws.2]
                  show Option.map (fun l => Json.obj (jdict l))
                      (kvs.mapM fun p => (readJsonH fuel h1 p.2).map fun j => (p.1, j))
                    = Option.map (fun l => Json.obj (jdict l))
                      (kvs.mapM fun p => (readJsonH fuel h0 p.2).map fun j => (p.1, j))
                  rw [key kvs hall]

/-- `apply_field_aliases` over the heap, with dot-free destinations, leaves
every cell allocated before the call unchanged. -/
theorem apply_field_aliasesH_preserves (h0 : Heap) (src : HVal)
    (cfg : List (String × FieldSpec)) (out : HVal) (h' : Heap)
    (hdots : ∀ p fc, (p, fc) ∈ cfg → '.' ∉ (destinationName p fc).toList)
    (hok : apply_field_aliasesH h0 src cfg = .ok (out, h')) :
    ∀ a, a < h0.next → lookupH h' a = lookupH h0 a := by
  intro a ha
  rw [apply_field_aliasesH] at hok
  simp only [bind, Except.bind] at hok
  cases h1 : importantFields.foldlM
      (copyImportantFieldH src (allocH h0 (.dict [])).1) (allocH h0 (.dict [])).2 with
  | error e => simp only [h1] at hok; exact Except.noConfusion hok
  | ok hA =>
      simp only [h1] at hok
      cases h2 : cfg.foldlM
          (fun h p => applyOneFieldH h src (allocH h0 (.dict [])).1 p.1 p.2) hA with
      | error e => simp only [h2] at hok; exact Except.noConfusion hok
      | ok hB =>
          simp only [h2] at hok
          simp only [pure, Except.pure, Except.ok.injEq, Prod.mk.injEq] at hok
          have hmod1 : heapMod (allocH h0 (.dict [])).1 (allocH h0 (.dict [])).2 hA :=
            foldlM_copyImportantFieldH_mod src _ importantFields _ hA h1
          have hmod2 : heapMod (allocH h0 (.dict [])).1 hA hB :=
            foldlM_applyOneFieldH_mod src _ cfg hA hB hdots h2
          have hane : a ≠ (allocH h0 (.dict [])).1 := Nat.ne_of_lt ha
          have ha2 : a < (allocH h0 (.dict [])).2.next := Nat.lt_succ_of_lt ha
          rw [← hok.2]
          rw [hmod2.2 a (Nat.lt_of_lt_of_le ha2 hmod1.1) hane]
          rw [hmod1.2 a ha2 hane]
          exact lookupH_allocH h0 _ a (Nat.ne_of_lt ha)

/-- C3 counterexample: the whitelist copy shares objects between `source`
and `new_source` by reference, so a config whose dotted alias extends the
whitelist field `userId` (here `"userId.b"`) makes `set_nested_value` write
through the shared dict: after the call the *source* document reads back
with the extra key `b` — the source is mutated.  The initial heap is
well-formed. -/
theorem c3_counterexample :
    wfHeapB ⟨[(0, .dict [("userId", .ref 1), ("x", .prim (.num 2))]),
              (1, .dict [("a", .prim (.num 1))])], 2⟩ = true
    ∧ apply_field_aliasesH
        ⟨[(0, .dict [("userId", .ref 1), ("x", .prim (.num 2))]),
          (1, .dict [("a", .prim (.num 1))])], 2⟩
        (.ref 0) [("x", { «alias» := some "userId.b" })]
      = .ok (.ref 2,
          ⟨[(0, .dict [("userId", .ref 1), ("x", .prim (.num 2))]),
            (1, .dict [("a", .prim (.num 1)), ("b", .prim (.num 2))]),
            (2, .dict [("userId", .ref 1)])], 3⟩)
    ∧ readJsonH 9
        ⟨[(0, .dict [("userId", .ref 1), ("x", .prim (.num 2))]),
          (1, .dict [("a", .prim (.num 1))])], 2⟩ (.ref 0)
      = some (.obj (jdict [("userId", .obj (jdict [("a", .num 1)])), ("x", .num 2)]))
    ∧ readJsonH 9
        ⟨[(0, .dict [("userId", .ref 1), ("x", .prim (.num 2))]),
          (1, .dict [("a", .prim (.num 1)), ("b", .prim (.num 2))]),
          (2, .dict [("userId", .ref 1)])], 3⟩ (.ref 0)
      = some (.obj (jdict [("userId", .obj (jdict [("a", .num 1), ("b", .num 2)])),
          ("x", .num 2)]))
    ∧ Json.obj (jdict [("userId", .obj (jdict [("a", .num 1), ("b", .num 2)])),
          ("x", .num 2)])
        ≠ .obj (jdict [("userId", .obj (jdict [("a", .num 1)])), ("x", .num 2)]) :=
  ⟨rfl, rfl, rfl, rfl, fun hc => by simp [jdict] at hc⟩

/-- C3 (amended): on a well-formed heap, when every destination name
(truthy alias, else field name) is dot-free, `apply_field_aliases` leaves
the source document unchanged: the read-back of the source reference is
identical before and after, at every fuel.  (The output lives in a freshly
allocated cell, but it shares subobjects with the source, and a dotted
destination can mutate them — the counterexample.) -/
theorem c3_amended_source_readback_unchanged (h0 : Heap) (src : HVal)
    (cfg : List (String × FieldSpec)) (out : HVal) (h' : Heap)
    (hwf : wfHeapB h0 = true) (hsrc : valBelow h0.next src = true)
    (hdots : ∀ p fc, (p, fc) ∈ cfg → '.' ∉ (destinationName p fc).toList)
    (hok : apply_field_aliasesH h0 src cfg = .ok (out, h')) :
    ∀ fuel, readJsonH fuel h' src = readJsonH fuel h0 src :=
  fun fuel =>
    readJsonH_agree h0.next h0 h'
      (apply_field_aliasesH_preserves h0 src cfg out h' hdots hok)
      (fun a o _ hlk => wfHeapB_below h0 hwf a o hlk)
      fuel src hsrc

/-- C3 witness: the amended theorem on the two-cell heap with the dot-free
config `{"x": {"alias": "y"}}`. -/
theorem c3_amended_source_readback_unchanged_witness :
    readJsonH 9
        ⟨[(0, .dict [("userId", .ref 1), ("x", .prim (.num 2))]),
          (1, .dict [("a", .prim (.num 1))]),
          (2, .dict [("userId", .ref 1), ("y", .prim (.num 2))])], 3⟩ (.ref 0)
      = readJsonH 9
        ⟨[(0, .dict [("userId", .ref 1), ("x", .prim (.num 2))]),
          (1, .dict [("a", .prim (.num 1))])], 2⟩ (.ref 0) :=
  c3_amended_source_readback_unchanged
    ⟨[(0, .dict [("userId", .ref 1), ("x", .prim (.num 2))]),
      (1, .dict [("a", .prim (.num 1))])], 2⟩
    (.ref 0) [("x", { «alias» := some "y" })] (.ref 2)
    ⟨[(0, .dict [("userId", .ref 1), ("x", .prim (.num 2))]),
      (1, .dict [("a", .prim (.num 1))]),
      (2, .dict [("userId", .ref 1), ("y", .prim (.num 2))])], 3⟩
    (by decide) (by decide)
    (by
      intro p fc hm
      simp only [List.mem_singleton, Prod.mk.injEq] at hm
      obtain ⟨rfl, rfl⟩ := hm
      decide)
    rfl 9
